import Mathlib

/-!
Verification of the wifi-topology-viewer backend against its specification.

The JavaScript sources are shallowly embedded in Lean:
* JS numbers are modelled as `ℚ` (all inputs of interest are finite decimals);
  a value that may be `NaN`/non-finite is modelled as `Option ℚ` with `none`
  standing for the non-finite case.
* JS `Map`s are modelled as association lists in insertion order (`mapGet`,
  `mapSet`, deletion by `filter`), matching `Map.get` / `Map.set` /
  `Map.delete` semantics including in-place value update on `set`.
* `Array.prototype.sort` with a numeric comparator is modelled by a stable
  insertion sort (`sortByDesc`); V8's sort is stable, and all properties
  proved below are order-insensitive or hold for any stable sort.
* Floating-point library collaborators that compute no control flow relevant
  to the claims (`Math.sqrt`, the `ml-matrix` eigensolver inside
  `classicalMDS`, the trigonometric fallback position generator, and
  `Math.hypot`) are abstracted as explicit function parameters; every theorem
  quantifies over them.
-/

/-- Model of the `clamp(value, min, max)` helper that appears verbatim in
`backend/src/server.js`, `stats.js` and `insights.js`:
`Math.max(min, Math.min(max, value))`. -/
def clamp (value lo hi : ℚ) : ℚ := max lo (min hi value)

/-- Model of `Math.round` on finite numbers: JS rounds half toward `+∞`,
i.e. `Math.round(x) = ⌊x + 0.5⌋`.  Computed on the (reduced) fraction so
that it evaluates by kernel reduction; `ℤ` division by a positive
denominator is floor division. -/
def jsRound (q : ℚ) : ℤ := (q + 1/2).num / ((q + 1/2).den : ℤ)

/-- Model of `Number.parseInt(v, 10)` applied to a finite number `v` whose
decimal rendering is in plain (non-exponent) notation, i.e.
`|v| ∈ {0} ∪ [1e-6, 1e21)`: the printed digits before the decimal point are
exactly the truncation of `v` toward zero.  (Outside that range JS prints
exponent notation and `parseInt` would read only the mantissa; theorems that
quantify over parsed inputs therefore carry a `plainDecimal` hypothesis.) -/
def jsParseInt (q : ℚ) : ℤ := Int.tdiv q.num (q.den : ℤ)

/-- Domain on which `jsParseInt` agrees with JS `Number.parseInt(v, 10)`:
finite numbers whose `toString` uses plain decimal notation. -/
def plainDecimal (q : ℚ) : Prop := q = 0 ∨ (1/1000000 ≤ |q| ∧ |q| < 10 ^ 21)

/-- Model of `Array.prototype.slice(start)` for a possibly negative `start`:
a negative start counts from the end of the array
(`start := max(length + start, 0)`). -/
def jsSliceFrom (l : List α) (start : ℤ) : List α :=
  if start < 0 then l.drop (max ((l.length : ℤ) + start) 0).toNat
  else l.drop start.toNat

/-- Lookup in an insertion-ordered association list (JS `Map.get`). -/
def mapGet [DecidableEq κ] (m : List (κ × α)) (k : κ) : Option α :=
  match m with
  | [] => none
  | (k', v) :: rest => if k' = k then some v else mapGet rest k

/-- Update in an insertion-ordered association list (JS `Map.set`): an
existing key keeps its position and gets the new value, a new key is
appended at the end. -/
def mapSet [DecidableEq κ] (m : List (κ × α)) (k : κ) (v : α) : List (κ × α) :=
  match m with
  | [] => [(k, v)]
  | (k', v') :: rest => if k' = k then (k, v) :: rest else (k', v') :: mapSet rest k v

/-- Stable insertion of `e` into a list sorted by strictly descending `key`:
`e` is placed before the first element whose key is strictly smaller, so
elements with equal keys keep their original relative order. -/
def insertByDesc (key : α → ℚ) (e : α) : List α → List α
  | [] => [e]
  | x :: xs => if key x < key e then e :: x :: xs else x :: insertByDesc key e xs

/-- Stable sort by strictly descending `key`; models
`array.sort((a, b) => key(b) - key(a))` under V8's stable sort. -/
def sortByDesc (key : α → ℚ) (l : List α) : List α := l.foldr (insertByDesc key) []

/-- Model of `computeReplayDelayMs(current, next, speed, fallbackMs)`
(`backend/src/server.js` lines 682-690).  `currentT` is `Number(current.t)`
(`none` = non-finite) and `next` is the optional next entry carrying its own
`Number(next.t)`:

```js
if (!next) { return fallbackMs; }
const raw = Number(next.t) - Number(current.t);
const base = Number.isFinite(raw) && raw > 40 ? raw : fallbackMs;
return clamp(Math.round(base / Math.max(speed, 0.1)), 40, 15_000);
```
-/
def computeReplayDelayMs (currentT : Option ℚ) (next : Option (Option ℚ))
    (speed fallbackMs : ℚ) : ℚ :=
  match next with
  | none => fallbackMs
  | some nextT =>
    let raw : Option ℚ :=
      match nextT, currentT with
      | some b, some a => some (b - a)
      | _, _ => none
    let base : ℚ :=
      match raw with
      | some r => if 40 < r then r else fallbackMs
      | none => fallbackMs
    clamp ((jsRound (base / max speed (1/10))) : ℚ) 40 15000

/-- Modelled from the spec: the replay pacing formula the specification
states for the inter-entry delay,
`clamp(round(dt / max(speed, 0.1)), 40, 15000)` milliseconds, to be compared
with what `computeReplayDelayMs` actually computes. -/
def specReplayDelayFormula (dt speed : ℚ) : ℚ :=
  clamp ((jsRound (dt / max speed (1/10))) : ℚ) 40 15000

/-- Model of `weightedMean(values, weights)` (`backend/src/stats.js`):
out-of-range weight indices behave like JS `undefined` (non-finite, so
weight 1); nonpositive weights are skipped; if the total weight is `≤ 0` the
result is 0.  Weight values themselves are finite in this model. -/
def weightedMean (values weights : List ℚ) : ℚ :=
  let step := fun (acc : ℚ × ℚ) (p : ℕ × ℚ) =>
    let w := match weights.get? p.1 with
      | some wv => max 0 wv
      | none => 1
    if w ≤ 0 then acc else (acc.1 + w, acc.2 + p.2 * w)
  let totals : ℚ × ℚ := values.enum.foldl step (0, 0)
  if totals.1 ≤ 0 then 0 else totals.2 / totals.1

/-- Model of `normalizeWeight(value)` (`backend/src/stats.js`): clamp a
finite weight into `[0, 1]`. -/
def normalizeWeight (value : ℚ) : ℚ := clamp value 0 1

/-- Model of `normalizeWeights(weights, overlap)` (`backend/src/stats.js`).
A missing/empty weight array becomes all-ones; otherwise the array is cut
with `slice(weights.length - overlap)` (negative starts wrap, `jsSliceFrom`)
and front-padded with ones up to `overlap`. -/
def normalizeWeights (weights : List ℚ) (overlap : ℕ) : List ℚ :=
  if weights.length = 0 then List.replicate overlap 1
  else
    let sliced := jsSliceFrom weights ((weights.length : ℤ) - (overlap : ℤ))
    if sliced.length < overlap then
      List.replicate (overlap - sliced.length) 1 ++ sliced.map normalizeWeight
    else sliced.map normalizeWeight

/-- Model of `weightedPearsonCorrelation(xs, ys, weightsX, weightsY,
minOverlap)` (`backend/src/stats.js` lines 107-135).  `msqrt` abstracts
`Math.sqrt`; it only produces numeric weight values and the final
denominator, never the control flow of the early-return guards (combined
weights are products of values in `[0,1]`, and JS keeps a combined weight
exactly when it is finite and positive, which the caller's `msqrt` decides
through the produced value the same way this model does). -/
def weightedPearsonCorrelation (msqrt : ℚ → ℚ) (xs ys weightsX weightsY : List ℚ)
    (minOverlap : ℕ) : ℚ :=
  let overlap := min xs.length ys.length
  if overlap < minOverlap then 0
  else
    let x := jsSliceFrom xs ((xs.length : ℤ) - (overlap : ℤ))
    let y := jsSliceFrom ys ((ys.length : ℤ) - (overlap : ℤ))
    let wx := normalizeWeights weightsX overlap
    let wy := normalizeWeights weightsY overlap
    let filtered := (List.range overlap).filterMap (fun i =>
      let weight := msqrt ((wx.get? i).getD 0 * (wy.get? i).getD 0)
      if weight ≤ 0 then none
      else some ((x.get? i).getD 0, (y.get? i).getD 0, weight))
    if filtered.length < minOverlap then 0
    else
      let fx := filtered.map (·.1)
      let fy := filtered.map (·.2.1)
      let fw := filtered.map (·.2.2)
      let meanX := weightedMean fx fw
      let meanY := weightedMean fy fw
      let sums := filtered.foldl
        (fun (acc : ℚ × ℚ × ℚ) t =>
          let dx := t.1 - meanX
          let dy := t.2.1 - meanY
          (acc.1 + t.2.2 * dx * dy, acc.2.1 + t.2.2 * dx * dx, acc.2.2 + t.2.2 * dy * dy))
        (0, 0, 0)
      if sums.2.1 ≤ 0 ∨ sums.2.2 ≤ 0 then 0
      else clamp (sums.1 / msqrt (sums.2.1 * sums.2.2)) (-1) 1

/-- Model of `buildCorrelationMatrix(sampleSeries, weightSeries, minOverlap)`
(`backend/src/stats.js`): symmetric matrix with unit diagonal, upper
triangle computed by `weightedPearsonCorrelation` and mirrored. -/
def buildCorrelationMatrix (msqrt : ℚ → ℚ) (sampleSeries weightSeries : List (List ℚ))
    (minOverlap : ℕ) : List (List ℚ) :=
  let size := sampleSeries.length
  (List.range size).map (fun i =>
    (List.range size).map (fun j =>
      if i = j then 1
      else
        let a := min i j
        let b := max i j
        weightedPearsonCorrelation msqrt
          ((sampleSeries.get? a).getD []) ((sampleSeries.get? b).getD [])
          ((weightSeries.get? a).getD []) ((weightSeries.get? b).getD [])
          minOverlap))

/-- Model of `correlationToDistance(corr) = 1 - clamp(corr, -1, 1)`
(`backend/src/stats.js`). -/
def correlationToDistance (corr : ℚ) : ℚ := 1 - clamp corr (-1) 1

/-- Undirected weighted edge: unordered pair of entity ids with its
correlation, as produced by `buildTopCorrelationEdges` and consumed by
`buildClusters`. -/
structure Edge where
  a : String
  b : String
  corr : ℚ
deriving DecidableEq

/-- Per-node candidate `{ j, corr }` collected by
`buildTopCorrelationEdges` before ranking. -/
structure Cand where
  j : ℕ
  corr : ℚ
deriving DecidableEq

/-- Matrix access `corrMatrix[i][j]`; `none` when the entry is missing
(in JS a missing inner entry is `undefined`, which fails every `>`
comparison and so can never become a candidate). -/
def corrAt (m : List (List ℚ)) (i j : ℕ) : Option ℚ := (m.get? i).bind (·.get? j)

/-- Candidate list of node `i` in `buildTopCorrelationEdges`
(`backend/src/stats.js` lines 197-208): all `j ≠ i` with
`corrMatrix[i][j] > minCorr`, in index order. -/
def candidatesFor (n : ℕ) (m : List (List ℚ)) (minCorr : ℚ) (i : ℕ) : List Cand :=
  (List.range n).filterMap (fun j =>
    if i = j then none
    else (corrAt m i j).bind (fun c => if minCorr < c then some ⟨j, c⟩ else none))

/-- One `edgeByKey` update of `buildTopCorrelationEdges`
(`backend/src/stats.js` lines 212-224): key the ordered index pair, keep the
candidate with the larger correlation. -/
def edgeKeyUpdate (ids : List String) (i : ℕ) (acc : List ((ℕ × ℕ) × Edge))
    (c : Cand) : List ((ℕ × ℕ) × Edge) :=
  let a := if i < c.j then i else c.j
  let b := if i < c.j then c.j else i
  let e : Edge := ⟨(ids.get? a).getD "", (ids.get? b).getD "", c.corr⟩
  match mapGet acc (a, b) with
  | some existing => if existing.corr < c.corr then mapSet acc (a, b) e else acc
  | none => mapSet acc (a, b) e

/-- Model of `buildTopCorrelationEdges(ids, corrMatrix, maxPerNode, minCorr,
maxEdges)` (`backend/src/stats.js` lines 188-230): per node, rank the
candidates with `corr > minCorr` by descending correlation, keep the top
`maxPerNode`, deduplicate undirected pairs keeping the larger correlation,
then globally sort by descending correlation and cap at `maxEdges`. -/
def buildTopCorrelationEdges (ids : List String) (corrMatrix : List (List ℚ))
    (maxPerNode : ℕ) (minCorr : ℚ) (maxEdges : ℕ) : List Edge :=
  let final := (List.range ids.length).foldl
    (fun acc i =>
      ((sortByDesc Cand.corr (candidatesFor ids.length corrMatrix minCorr i)).take
        maxPerNode).foldl (edgeKeyUpdate ids i) acc)
    []
  (sortByDesc Edge.corr (final.map (·.2))).take maxEdges

/-- Adjacency map of `buildClusters` (`backend/src/topology.js`): JS
`Map<string, Set<string>>` as an association list of duplicate-free
neighbor lists in insertion order. -/
abbrev Graph := List (String × List String)

/-- JS `Set.add`: append the element unless already present. -/
def setAdd (s : List String) (v : String) : List String :=
  if v ∈ s then s else s ++ [v]

/-- JS `graph.get(k)?.add(v)`: if `k` is a key, add `v` to its neighbor
set; if `k` is not a key this is a no-op (optional chaining). -/
def graphAddNeighbor (g : Graph) (k v : String) : Graph :=
  g.map (fun p => if p.1 = k then (p.1, setAdd p.2 v) else p)

/-- JS `new Map(ids.map((id) => [id, new Set()]))`: one empty neighbor set
per distinct id, keyed in first-occurrence order. -/
def initGraph (ids : List String) : Graph :=
  ids.foldl (fun g id => if (mapGet g id).isSome then g else g ++ [(id, [])]) []

/-- Qualifying edges of `buildClusters`: the loop skips an edge exactly when
`edge.corr < minCorr`. -/
def qualifyingEdges (edges : List Edge) (minCorr : ℚ) : List Edge :=
  edges.filter (fun e => !(decide (e.corr < minCorr)))

/-- Adjacency construction of `buildClusters` (`backend/src/topology.js`
lines 1-10): fold the qualifying edges into the id-keyed neighbor sets in
both directions. -/
def buildGraph (ids : List String) (edges : List Edge) (minCorr : ℚ) : Graph :=
  (qualifyingEdges edges minCorr).foldl
    (fun g e => graphAddNeighbor (graphAddNeighbor g e.a e.b) e.b e.a)
    (initGraph ids)

/-- JS `graph.get(node) || []`. -/
def neighborsOf (g : Graph) (v : String) : List String := (mapGet g v).getD []

/-- Every node that can ever be pushed on the traversal stack: the keys and
all neighbor-list entries of the graph.  Used only to size the fuel of
`dfsLoop`. -/
def graphUniv (g : Graph) : List String := g.map (·.1) ++ g.flatMap (·.2)

/-- The stack-based traversal loop of `buildClusters`
(`backend/src/topology.js` lines 28-37), with the stack held top-first:

```js
while (stack.length) {
  const node = stack.pop();
  members.push(node);
  for (const neighbor of graph.get(node) || []) {
    if (!visited.has(neighbor)) { visited.add(neighbor); stack.push(neighbor); }
  }
}
```

The loop is driven by explicit fuel so that it is structurally recursive
and evaluates by kernel reduction; `buildClusters` passes
`graphUniv g |>.length + 1` fuel, which is proved sufficient below (each
iteration either pops without pushing or freshly visits at least one
universe node, so the loop runs at most `stack.length + |unvisited universe|`
times and the fuel-exhaustion branch is unreachable). -/
def dfsLoop (g : Graph) : ℕ → List String → List String → List String →
    List String × List String
  | 0, _, visited, members => (visited, members)
  | _ + 1, [], visited, members => (visited, members)
  | fuel + 1, node :: rest, visited, members =>
    let sv := (neighborsOf g node).foldl
      (fun (sv : List String × List String) n =>
        if n ∈ sv.2 then sv else (n :: sv.1, sv.2 ++ [n]))
      (rest, visited)
    dfsLoop g fuel sv.1 sv.2 (members ++ [node])

/-- Mutable state of the `buildClusters` main loop: the visited set, both
output maps, the summary accumulator and the running cluster id. -/
structure ClusterState where
  visited : List String
  clusterById : List (String × ℕ)
  clusterSizeById : List (String × ℕ)
  summary : List ℕ
  nextClusterId : ℕ

/-- One iteration of the `for (const id of ids)` loop of `buildClusters`
(`backend/src/topology.js` lines 19-47): skip visited ids, otherwise
traverse the component and, when it has more than one member, assign the
next sequential cluster id and the member count to every member. -/
def clusterStep (g : Graph) (st : ClusterState) (id : String) : ClusterState :=
  if id ∈ st.visited then st
  else
    let vm := dfsLoop g ((graphUniv g).length + 1) [id] (st.visited ++ [id]) []
    if 1 < vm.2.length then
      { visited := vm.1
        clusterById := vm.2.foldl (fun m v => mapSet m v st.nextClusterId) st.clusterById
        clusterSizeById := vm.2.foldl (fun m v => mapSet m v vm.2.length) st.clusterSizeById
        summary := st.summary ++ [vm.2.length]
        nextClusterId := st.nextClusterId + 1 }
    else { st with visited := vm.1 }

/-- Output record of `buildClusters`. -/
structure Clusters where
  clusterById : List (String × ℕ)
  clusterSizeById : List (String × ℕ)
  summary : List ℕ

/-- Model of `buildClusters(ids, edges, minCorr)`
(`backend/src/topology.js` lines 1-56): thresholded adjacency build,
iterative connected-component traversal over all ids, cluster ids assigned
sequentially from 1 in root-first-visited order to components with at least
two members (singletons keep the initial `0` / size `1`), summary of
multi-member component sizes sorted descending. -/
def buildClusters (ids : List String) (edges : List Edge) (minCorr : ℚ) : Clusters :=
  let g := buildGraph ids edges minCorr
  let init : ClusterState :=
    { visited := []
      clusterById := ids.foldl (fun m id => if (mapGet m id).isSome then m else m ++ [(id, 0)]) []
      clusterSizeById := ids.foldl (fun m id => if (mapGet m id).isSome then m else m ++ [(id, 1)]) []
      summary := []
      nextClusterId := 1 }
  let final := ids.foldl (clusterStep g) init
  { clusterById := final.clusterById
    clusterSizeById := final.clusterSizeById
    summary := sortByDesc (fun n => (n : ℚ)) final.summary }

/-- The `(visited, members)` pair produced by one component traversal of
`buildClusters` when it reaches the unvisited root `id`; definitionally the
`vm` of `clusterStep`, named so that proofs can refer to it compactly. -/
def dfsRun (g : Graph) (visited : List String) (id : String) :
    List String × List String :=
  dfsLoop g ((graphUniv g).length + 1) [id] (visited ++ [id]) []

/-- Two nodes joined by one qualifying edge (in either orientation) of the
edge list handed to the Cluster Detector. -/
def adjacentIn (edges : List Edge) (minCorr : ℚ) (u v : String) : Prop :=
  ∃ e ∈ qualifyingEdges edges minCorr, (e.a = u ∧ e.b = v) ∨ (e.a = v ∧ e.b = u)

/-- Connectivity in the qualifying-edge graph: reflexive-transitive closure
of `adjacentIn`.  This is the formal reading of "same connected component"
in the Cluster Detector claim. -/
def connectedIn (edges : List Edge) (minCorr : ℚ) : String → String → Prop :=
  Relation.ReflTransGen (adjacentIn edges minCorr)

/-- Node whose connected component is a singleton. -/
def singletonComp (conn : String → String → Prop) (x : String) : Prop :=
  ∀ w, conn x w → w = x

/-- Specification of the component-root list: `RepsOf conn pre reps` holds
when `reps` lists, in first-visited order, exactly one root per
multi-member component whose first member occurs in the processed prefix
`pre` — the root being that first member.  An element of `pre` is skipped
when its component was already rooted earlier (`covered`) or is a
singleton (`single`); otherwise it becomes the next root (`root`).
Cluster id `i + 1` then belongs to the component of `reps[i]`, which is
what "sequential ids starting at 1 in root-first-visited order" means. -/
inductive RepsOf (conn : String → String → Prop) : List String → List String → Prop where
  | nil : RepsOf conn [] []
  | covered {pre reps x} : RepsOf conn pre reps → (∃ p ∈ pre, conn p x) →
      RepsOf conn (pre ++ [x]) reps
  | single {pre reps x} : RepsOf conn pre reps → (¬ ∃ p ∈ pre, conn p x) →
      singletonComp conn x → RepsOf conn (pre ++ [x]) reps
  | root {pre reps x} : RepsOf conn pre reps → (¬ ∃ p ∈ pre, conn p x) →
      ¬ singletonComp conn x → RepsOf conn (pre ++ [x]) (reps ++ [x])

/-- One scanner observation as consumed by `applyScanResults`
(`backend/src/wifiScanner.js` output shape).  `rssi` is `none` when
`Number.isFinite(ap.rssi)` fails; `scanSource` is `none` when the JS field
is falsy (so `ap.scanSource || 'airport'` picks the default). -/
structure ScanAp where
  bssid : String
  ssid : String
  rssi : Option ℚ
  rssiEstimated : Bool
  scanSource : Option String
  bssidSynthetic : Bool
  channel : String
  band : String
  security : String
deriving DecidableEq

/-- One tracked entity record of the Entity State Store (`apState` in
`backend/src/server.js` / the analyze session). -/
structure ApRecord where
  bssid : String
  ssid : String
  ssidHistory : List String
  samples : List ℚ
  sampleWeights : List ℚ
  sampleEstimated : List Bool
  lastSeen : ℚ
  latestRssi : ℚ
  latestWeight : ℚ
  rssiEstimated : Bool
  scanSource : String
  channel : String
  band : String
  security : String
deriving DecidableEq

/-- The Entity State Store: JS `Map` keyed by bssid, in insertion order. -/
abbrev ApMap := List (String × ApRecord)

/-- A 3D position as produced by the embedder. -/
abbrev Vec3 := ℚ × ℚ × ℚ

/-- The position store (`positionState`), keyed by bssid. -/
abbrev PosMap := List (String × Vec3)

/-- Model of `deriveSampleWeight(ap)` (`backend/src/server.js` lines
477-488, identical in the analyze session). -/
def deriveSampleWeight (ap : ScanAp) : ℚ :=
  if ap.rssiEstimated then 12/100
  else if ap.scanSource = some "system_profiler" then 45/100
  else if ap.bssidSynthetic then 35/100
  else 1

/-- Model of `isHiddenSsid(value)`: the trimmed label equals the hidden
sentinel. -/
def isHiddenSsid (value : String) : Bool := value.trim = "<hidden>"

/-- Model of `shouldReplaceSsid(existingSsid, incomingSsid)`
(`backend/src/server.js` lines 490-496). -/
def shouldReplaceSsid (existingSsid incomingSsid : String) : Bool :=
  if existingSsid = incomingSsid then false
  else !(isHiddenSsid incomingSsid && !(isHiddenSsid existingSsid))

/-- The record created on first observation of a bssid
(`backend/src/server.js` lines 314-331). -/
def freshRecord (ap : ScanAp) (now : ℚ) (rssi : ℚ) : ApRecord :=
  { bssid := ap.bssid
    ssid := ap.ssid
    ssidHistory := [ap.ssid]
    samples := []
    sampleWeights := []
    sampleEstimated := []
    lastSeen := now
    latestRssi := rssi
    latestWeight := deriveSampleWeight ap
    rssiEstimated := ap.rssiEstimated
    scanSource := ap.scanSource.getD "airport"
    channel := ap.channel
    band := ap.band
    security := ap.security }

/-- The unconditional per-tick field overwrites of the ingest loop
(`backend/src/server.js` lines 334-341). -/
def latestFieldsUpdate (now : ℚ) (ap : ScanAp) (rssi : ℚ) (record : ApRecord) : ApRecord :=
  { record with
    lastSeen := now
    latestRssi := rssi
    latestWeight := deriveSampleWeight ap
    rssiEstimated := ap.rssiEstimated
    scanSource := ap.scanSource.getD "airport"
    channel := ap.channel
    band := ap.band
    security := ap.security }

/-- The ssid replacement policy of the ingest loop
(`backend/src/server.js` lines 343-351): replace unless the incoming label
would regress a known label to the hidden sentinel; track up to 5 distinct
labels, dropping the oldest. -/
def ssidUpdate (ap : ScanAp) (r1 : ApRecord) : ApRecord :=
  if shouldReplaceSsid r1.ssid ap.ssid then
    { r1 with
      ssid := ap.ssid
      ssidHistory :=
        if ap.ssid ∈ r1.ssidHistory then r1.ssidHistory
        else
          let h := r1.ssidHistory ++ [ap.ssid]
          if 5 < h.length then h.tail else h }
  else r1

/-- The rolling-window push of the ingest loop (`backend/src/server.js`
lines 353-361): append rssi / weight / estimated-flag in lockstep and shift
all three from the front when the sample count exceeds the window. -/
def sampleWindowPush (windowSize : ℕ) (rssi latestWeight : ℚ) (estimated : Bool)
    (r2 : ApRecord) : ApRecord :=
  let samples := r2.samples ++ [rssi]
  let weights := r2.sampleWeights ++ [latestWeight]
  let est := r2.sampleEstimated ++ [estimated]
  if windowSize < samples.length then
    { r2 with
      samples := samples.tail
      sampleWeights := weights.tail
      sampleEstimated := est.tail }
  else
    { r2 with
      samples := samples
      sampleWeights := weights
      sampleEstimated := est }

/-- Ingestion of one observation into the store: the body of the
`for (const ap of results)` loop of `applyScanResults`
(`backend/src/server.js` lines 307-362, identical in the analyze session):
skip non-finite rssi, create-or-fetch the record, overwrite the latest
fields, apply the ssid replacement policy and the rolling-window push. -/
def ingestAp (windowSize : ℕ) (now : ℚ) (st : ApMap) (ap : ScanAp) : ApMap :=
  match ap.rssi with
  | none => st
  | some rssi =>
    let record := (mapGet st ap.bssid).getD (freshRecord ap now rssi)
    let r1 := latestFieldsUpdate now ap rssi record
    let r2 := ssidUpdate ap r1
    mapSet st ap.bssid
      (sampleWindowPush windowSize rssi r1.latestWeight ap.rssiEstimated r2)

/-- The bssids removed by the staleness sweep at the end of
`applyScanResults`: entries with `now - record.lastSeen > evictAfterMs`. -/
def staleKeys (st : ApMap) (now evictAfterMs : ℚ) : List String :=
  (st.filter (fun p => decide (evictAfterMs < now - p.2.lastSeen))).map (·.1)

/-- The staleness sweep of `applyScanResults` (`backend/src/server.js`
lines 364-369): delete every stale record from the entity store and its
entry from the position store. -/
def evictStale (st : ApMap) (pos : PosMap) (now evictAfterMs : ℚ) : ApMap × PosMap :=
  (st.filter (fun p => !(decide (evictAfterMs < now - p.2.lastSeen))),
   pos.filter (fun p => !(decide (p.1 ∈ staleKeys st now evictAfterMs))))

/-- Model of `applyScanResults(results, now)` (`backend/src/server.js`
lines 306-370): ingest the batch in order, then run the staleness sweep
over entity and position stores. -/
def applyScanResults (st : ApMap) (pos : PosMap) (results : List ScanAp)
    (now : ℚ) (windowSize : ℕ) (evictAfterMs : ℚ) : ApMap × PosMap :=
  evictStale (results.foldl (ingestAp windowSize now) st) pos now evictAfterMs

/-- Model of the analyze session's `applyScanResults`
(`runAnalyzeSession` module, lines 56-119): identical ingestion and
staleness sweep, but with no position store. -/
def applyScanResultsAnalyze (st : ApMap) (results : List ScanAp) (now : ℚ)
    (windowSize : ℕ) (evictAfterMs : ℚ) : ApMap :=
  (results.foldl (ingestAp windowSize now) st).filter
    (fun p => !(decide (evictAfterMs < now - p.2.lastSeen)))

/-- The per-record body of `trimWindowForAllRecords`
(`backend/src/server.js` lines 503-513): each of the three parallel
histories is cut with `slice(length - windowSize)` when longer than the
window, keeping the most recent entries. -/
def trimRecord (windowSize : ℕ) (r : ApRecord) : ApRecord :=
  let r1 := if windowSize < r.samples.length then
      { r with samples := r.samples.drop (r.samples.length - windowSize) }
    else r
  let r2 := if windowSize < r1.sampleWeights.length then
      { r1 with sampleWeights := r1.sampleWeights.drop (r1.sampleWeights.length - windowSize) }
    else r1
  if windowSize < r2.sampleEstimated.length then
    { r2 with sampleEstimated := r2.sampleEstimated.drop (r2.sampleEstimated.length - windowSize) }
  else r2

/-- Model of `trimWindowForAllRecords(windowSize)`
(`backend/src/server.js` lines 502-514): every record's three parallel
histories are cut to their most recent `windowSize` entries when longer. -/
def trimWindowForAllRecords (windowSize : ℕ) (st : ApMap) : ApMap :=
  st.map (fun p => (p.1, trimRecord windowSize p.2))

/-- The active-record selection at the top of `buildSnapshot`
(`backend/src/server.js` lines 373-376) and `buildAnalyzeSnapshot`: keep
non-stale records, sort by descending latest rssi (stable), cap at
`maxAps`. -/
def activeRecords (st : ApMap) (now evictAfterMs : ℚ) (maxAps : ℕ) : List ApRecord :=
  (sortByDesc ApRecord.latestRssi
    ((st.map (·.2)).filter (fun r => decide (now - r.lastSeen ≤ evictAfterMs)))).take maxAps

/-- Runtime configuration of the pipeline (`runtimeConfig` in
`backend/src/server.js`); only the fields the verified operations read. -/
structure RuntimeConfig where
  scanIntervalMs : ℚ
  windowSize : ℕ
  evictAfterMs : ℚ
  maxAps : ℕ
  minOverlap : ℕ
  edgeThreshold : ℚ
  maxEdges : ℕ
deriving DecidableEq

/-- Default runtime configuration (`backend/src/server.js` lines 39-49 with
no environment overrides). -/
def defaultRuntimeConfig : RuntimeConfig :=
  { scanIntervalMs := 1000
    windowSize := 30
    evictAfterMs := 30000
    maxAps := 40
    minOverlap := 8
    edgeThreshold := 6/10
    maxEdges := 120 }

/-- Concrete record fixture used by witnesses: a tracked AP with a full
2-sample window. -/
def witnessRecordA : ApRecord :=
  { bssid := "aa"
    ssid := "net"
    ssidHistory := ["net"]
    samples := [-40, -41]
    sampleWeights := [1, 1]
    sampleEstimated := [false, false]
    lastSeen := 0
    latestRssi := -41
    latestWeight := 1
    rssiEstimated := false
    scanSource := "airport"
    channel := "6"
    band := "2.4ghz"
    security := "WPA2" }

/-- Concrete observation fixture used by witnesses. -/
def witnessScanA : ScanAp :=
  { bssid := "aa"
    ssid := "net"
    rssi := some (-42)
    rssiEstimated := false
    scanSource := none
    bssidSynthetic := false
    channel := "6"
    band := "2.4ghz"
    security := "WPA2" }

/-- Model of `parseBoundedInt(value, min, max, label)`
(`backend/src/server.js` lines 762-771).  `value` is the raw request field:
`none` models a value on which `Number.parseInt` yields `NaN` (then the
"must be an integer" error is thrown); a numeric value is truncated by
`jsParseInt` before the bounds check. -/
def parseBoundedInt (value : Option ℚ) (lo hi : ℤ) (label : String) :
    Except String ℤ :=
  match value with
  | none => .error (label ++ " must be an integer")
  | some q =>
    let parsed := jsParseInt q
    if parsed < lo ∨ hi < parsed then
      .error (label ++ " must be between the configured bounds")
    else .ok parsed

/-- Model of `parseBoundedFloat(value, fallback, min, max, label)`
(`backend/src/server.js` lines 773-785) for a non-default label (the
`/config` route always passes one, so a non-finite value throws rather than
falling back). -/
def parseBoundedFloat (value : Option ℚ) (lo hi : ℚ) (label : String) :
    Except String ℚ :=
  match value with
  | none => .error (label ++ " must be a number")
  | some q =>
    if q < lo ∨ hi < q then
      .error (label ++ " must be between the configured bounds")
    else .ok q

/-- A `PUT /config` request body: each field is `some v` when supplied
(`incoming.x !== undefined`), and the inner `Option ℚ` is `none` when the
supplied value is not numerically parseable (JS `NaN`). -/
structure IncomingConfig where
  scanIntervalMs : Option (Option ℚ) := none
  windowSize : Option (Option ℚ) := none
  edgeThreshold : Option (Option ℚ) := none
  minOverlap : Option (Option ℚ) := none

/-- One optional `incoming.x !== undefined` integer guard of the `PUT
/config` handler (`backend/src/server.js` lines 111-122): an absent field
contributes no update, a supplied one must parse within bounds. -/
def parseOptionalInt (field : Option (Option ℚ)) (lo hi : ℤ) (label : String) :
    Except String (Option ℤ) :=
  match field with
  | none => .ok none
  | some v => (parseBoundedInt v lo hi label).map some

/-- One optional `incoming.x !== undefined` float guard of the handler. -/
def parseOptionalFloat (field : Option (Option ℚ)) (lo hi : ℚ) (label : String) :
    Except String (Option ℚ) :=
  match field with
  | none => .ok none
  | some v => (parseBoundedFloat v lo hi label).map some

/-- The post-validation commit of the `PUT /config` handler: apply all
parsed updates to the configuration (`Object.assign`) and, when
`windowSize` was among them, immediately truncate every record's
histories. -/
def applyConfigUpdates (cfg : RuntimeConfig) (st : ApMap) (u1 u2 : Option ℤ)
    (u3 : Option ℚ) (u4 : Option ℤ) : RuntimeConfig × ApMap :=
  let cfg' : RuntimeConfig := { cfg with
    scanIntervalMs := match u1 with | some n => (n : ℚ) | none => cfg.scanIntervalMs
    windowSize := match u2 with | some n => n.toNat | none => cfg.windowSize
    edgeThreshold := match u3 with | some q => q | none => cfg.edgeThreshold
    minOverlap := match u4 with | some n => n.toNat | none => cfg.minOverlap }
  (cfg', if u2.isSome then trimWindowForAllRecords cfg'.windowSize st else st)

/-- Model of the `PUT /config` handler (`backend/src/server.js` lines
107-137): validate every supplied option first (any parse failure throws,
reaching the error middleware before any mutation), then apply all updates
to the configuration, and — when `windowSize` was updated — immediately
truncate every record's histories.  The `Except` error case therefore
leaves configuration and store untouched, exactly as in the source where
`Object.assign` and `trimWindowForAllRecords` run only after all parsing
succeeded. -/
def putConfig (inc : IncomingConfig) (cfg : RuntimeConfig) (st : ApMap) :
    Except String (RuntimeConfig × ApMap) :=
  (parseOptionalInt inc.scanIntervalMs 300 10000 "scanIntervalMs").bind (fun u1 =>
  (parseOptionalInt inc.windowSize 8 240 "windowSize").bind (fun u2 =>
  (parseOptionalFloat inc.edgeThreshold (5/100) (98/100) "edgeThreshold").bind (fun u3 =>
  (parseOptionalInt inc.minOverlap 4 80 "minOverlap").bind (fun u4 =>
  .ok (applyConfigUpdates cfg st u1 u2 u3 u4)))))

/-- Model of `isDegenerate(coords)` (`backend/src/mds.js`): total absolute
coordinate mass below `1e-6`. -/
def isDegenerate (coords : List Vec3) : Bool :=
  decide ((coords.foldl (fun t p => t + |p.1| + |p.2.1| + |p.2.2|) 0) < 1/1000000)

/-- Model of `stabilizeAxisSign(ids, coords, previousPositions)`
(`backend/src/mds.js`): with at least two ids that carry a previous
position, flip each axis whose dot product between previous and new values
over those shared ids is negative.  Flipping one axis does not change the
others, so the three sequential passes match the JS in-place loop. -/
def stabilizeAxisSign (ids : List String) (coords : List Vec3) (prev : PosMap) :
    List Vec3 :=
  let shared := (List.range ids.length).filter
    (fun i => (mapGet prev ((ids.get? i).getD "")).isSome)
  if shared.length < 2 then coords
  else
    let axisFlip := fun (get : Vec3 → ℚ) (cs : List Vec3) =>
      let dot : ℚ := shared.foldl
        (fun d i =>
          match mapGet prev ((ids.get? i).getD "") with
          | some p => d + get p * get ((cs.get? i).getD (0, 0, 0))
          | none => d)
        0
      decide (dot < 0)
    let c1 := if axisFlip (·.1) coords then
        coords.map (fun p => (-p.1, p.2.1, p.2.2)) else coords
    let c2 := if axisFlip (·.2.1) c1 then
        c1.map (fun p => (p.1, -p.2.1, p.2.2)) else c1
    if axisFlip (·.2.2) c2 then c2.map (fun p => (p.1, p.2.1, -p.2.2)) else c2

/-- Model of `centerAndScale(coords, radius)` (`backend/src/mds.js`):
subtract the centroid, then uniformly rescale so the farthest point sits at
`radius` (when the maximal `Math.hypot` distance, abstracted as `hypot3`,
exceeds `1e-6`). -/
def centerAndScale (hypot3 : ℚ → ℚ → ℚ → ℚ) (coords : List Vec3) (radius : ℚ) :
    List Vec3 :=
  let n : ℚ := (coords.length : ℚ)
  let csum := coords.foldl (fun (c : Vec3) p => (c.1 + p.1, c.2.1 + p.2.1, c.2.2 + p.2.2))
    (0, 0, 0)
  let centroid : Vec3 := (csum.1 / n, csum.2.1 / n, csum.2.2 / n)
  let shifted := coords.map (fun p => (p.1 - centroid.1, p.2.1 - centroid.2.1, p.2.2 - centroid.2.2))
  let maxDistance := shifted.foldl (fun m p => max m (hypot3 p.1 p.2.1 p.2.2)) 0
  let scale := if 1/1000000 < maxDistance then radius / maxDistance else 1
  shifted.map (fun p => (p.1 * scale, p.2.1 * scale, p.2.2 * scale))

/-- Componentwise `lerp(a, b, alpha) = a + (b - a) * alpha`
(`backend/src/mds.js`). -/
def lerp3 (a b : Vec3) (alpha : ℚ) : Vec3 :=
  (a.1 + (b.1 - a.1) * alpha, a.2.1 + (b.2.1 - a.2.1) * alpha, a.2.2 + (b.2.2 - a.2.2) * alpha)

/-- Model of `embedPositions({ids, distanceMatrix, previousPositions,
radius, smoothing})` (`backend/src/mds.js` lines 50-93).  `mds` abstracts
`classicalMDS` together with its `try/catch` (an exception yields `[]`);
`fallbackPos` abstracts `fallbackPositionFromId(id, r)`; `hypot3` abstracts
`Math.hypot`.  The result maps every id — and only the given ids — to a
position, smoothing toward any previous position. -/
def embedPositions (mds : List (List ℚ) → List Vec3)
    (fallbackPos : String → ℚ → Vec3) (hypot3 : ℚ → ℚ → ℚ → ℚ)
    (ids : List String) (distanceMatrix : List (List ℚ)) (previousPositions : PosMap)
    (radius smoothing : ℚ) : PosMap :=
  if ids.length = 0 then []
  else
    let coords0 := mds distanceMatrix
    let coords1 := if coords0.length = 0 ∨ isDegenerate coords0 then
        ids.map (fun id => fallbackPos id (radius * (65/100)))
      else coords0
    let coords2 := stabilizeAxisSign ids coords1 previousPositions
    let coords3 := centerAndScale hypot3 coords2 radius
    (List.range ids.length).foldl
      (fun res i =>
        mapSet res ((ids.get? i).getD "")
          (let target := (coords3.get? i).getD (0, 0, 0)
           match mapGet previousPositions ((ids.get? i).getD "") with
           | none => target
           | some prev => lerp3 prev target smoothing))
      []

/-- The position-store update performed by `buildSnapshot`
(`backend/src/server.js` lines 372-396): select the active records, build
the correlation and distance matrices over their windows, embed, and
replace the entire position store with the embedder's output
(`positionState.clear()` followed by re-inserting exactly the returned
entries). -/
def snapshotPositionUpdate (msqrt : ℚ → ℚ) (mds : List (List ℚ) → List Vec3)
    (fallbackPos : String → ℚ → Vec3) (hypot3 : ℚ → ℚ → ℚ → ℚ)
    (st : ApMap) (pos : PosMap) (now : ℚ) (cfg : RuntimeConfig) : PosMap :=
  let active := activeRecords st now cfg.evictAfterMs cfg.maxAps
  let ids := active.map (·.bssid)
  let corr := buildCorrelationMatrix msqrt (active.map (·.samples))
    (active.map (·.sampleWeights)) cfg.minOverlap
  let dist := corr.map (fun row => row.map correlationToDistance)
  embedPositions mds fallbackPos hypot3 ids dist pos 50 (2/10)

/-- Metadata bag of a replay-emitted snapshot: the fields `emitReplayTick`
overwrites, plus `rest` standing for every other key spread over from the
recorded entry's `meta` object. -/
structure ReplayMeta (M : Type) where
  rest : M
  mode : String
  replay : Bool
  replayPath : Option String
  replayIndex : ℕ
  replayTotal : ℕ
  replaySpeed : ℚ
  recording : Bool
deriving DecidableEq

/-- A snapshot as read from a recording and re-emitted during replay.  The
payload fields `aps` / `positions` / `edges` are opaque type parameters:
`emitReplayTick` spreads them through unchanged, never inspecting them.
`t` is the recorded top-level timestamp (`none` models a non-numeric
value). -/
structure ReplaySnapshot (A P E M : Type) where
  type : String
  t : Option ℚ
  aps : A
  positions : P
  edges : E
  meta : ReplayMeta M
deriving DecidableEq

/-- Runtime replay bookkeeping fields that `emitReplayTick` copies into the
emitted snapshot's `meta`. -/
structure ReplayTickInfo where
  replayPath : Option String
  replayIndex : ℕ
  replayTotal : ℕ
  replaySpeed : ℚ
  recording : Bool

/-- The snapshot construction inside `emitReplayTick`
(`backend/src/server.js` lines 659-673): spread the recorded entry, then
overwrite `type`, set `t` to `Date.now()` (the wall-clock emission time
`nowMs`), and rebuild `meta` from the recorded entry's `meta` with the
replay diagnostics overwritten:

```js
const snapshot = {
  ...current,
  type: 'snapshot',
  t: Date.now(),
  meta: { ...(current.meta || {}), mode: 'replay', replay: true,
          replayPath, replayIndex, replayTotal, replaySpeed, recording },
};
```
-/
def emitReplaySnapshot (current : ReplaySnapshot A P E M) (nowMs : ℚ)
    (info : ReplayTickInfo) : ReplaySnapshot A P E M :=
  { current with
    type := "snapshot"
    t := some nowMs
    meta := { rest := current.meta.rest
              mode := "replay"
              replay := true
              replayPath := info.replayPath
              replayIndex := info.replayIndex
              replayTotal := info.replayTotal
              replaySpeed := info.replaySpeed
              recording := info.recording } }

/-- The two summary fields of `buildAnalysisSummary`
(`backend/src/insights.js` lines 180-181) that the analyze failure check
reads: `apsObserved` is the caller-supplied observed count when finite
(else the tracked count), `apsTracked` is the number of aps in the final
snapshot. -/
structure AnalysisCounts where
  apsObserved : ℕ
  apsTracked : ℕ
deriving DecidableEq

/-- Restriction of `buildAnalysisSummary` to the count fields the failure
check reads (`observedApCount` is always a finite number in the analyze
session, namely `observedBssids.size`). -/
def buildAnalysisCounts (apsTracked : ℕ) (observedApCount : Option ℕ) : AnalysisCounts :=
  { apsObserved := observedApCount.getD apsTracked
    apsTracked := apsTracked }

/-- The distinct truthy bssids observed across all scans of an analyze
session (`observedBssids` in `runAnalyzeSession`): a JS `Set`, here a
duplicate-free list in insertion order; the empty string is falsy and
skipped. -/
def observedBssidsOf (scans : List (List ScanAp × ℚ)) : List String :=
  scans.foldl
    (fun acc batch => batch.1.foldl
      (fun acc ap => if ap.bssid = "" ∨ ap.bssid ∈ acc then acc else acc ++ [ap.bssid])
      acc)
    []

/-- The entity store at the end of an analyze session: each scan batch is
ingested with the analyze `applyScanResults` at its timestamp. -/
def analyzeFinalState (scans : List (List ScanAp × ℚ)) (windowSize : ℕ)
    (evictAfterMs : ℚ) : ApMap :=
  scans.foldl
    (fun st batch => applyScanResultsAnalyze st batch.1 batch.2 windowSize evictAfterMs)
    []

/-- Model of the observation bookkeeping and terminal failure check of
`runAnalyzeSession` (analyze session module, lines 221-292), with the
wall-clock loop abstracted to an explicit list of timestamped scan batches
ending at `endedAt`.  The final snapshot's ap list is the active-record
selection at `endedAt`; the run fails (`exitCode 2` at the CLI boundary)
exactly when `!summary.apsObserved || !summary.apsTracked`:

```js
if (!summary.apsObserved || !summary.apsTracked) {
  const error = new Error('Analyze run completed with 0 networks observed');
  error.exitCode = 2;
  throw error;
}
```
-/
def runAnalyzeSessionModel (scans : List (List ScanAp × ℚ)) (endedAt : ℚ)
    (cfg : RuntimeConfig) : Except String AnalysisCounts :=
  let apsTracked := (activeRecords (analyzeFinalState scans cfg.windowSize cfg.evictAfterMs)
    endedAt cfg.evictAfterMs cfg.maxAps).length
  let counts := buildAnalysisCounts apsTracked (some (observedBssidsOf scans).length)
  if counts.apsObserved = 0 ∨ counts.apsTracked = 0 then
    .error "Analyze run completed with 0 networks observed"
  else .ok counts

/-- Concrete fixture for the position-store analysis: a freshly seen AP
with the stronger signal. -/
def cexRecordHi : ApRecord :=
  { bssid := "aa"
    ssid := "a"
    ssidHistory := ["a"]
    samples := []
    sampleWeights := []
    sampleEstimated := []
    lastSeen := 1000
    latestRssi := -30
    latestWeight := 1
    rssiEstimated := false
    scanSource := "airport"
    channel := "1"
    band := "2.4ghz"
    security := "WPA2" }

/-- Concrete fixture: a second, equally fresh AP with the weaker signal,
which a `maxAps = 1` cap pushes out of the active set. -/
def cexRecordLo : ApRecord := { cexRecordHi with bssid := "bb", latestRssi := -50 }

/-- Entity store fixture holding both APs. -/
def cexApState : ApMap := [("aa", cexRecordHi), ("bb", cexRecordLo)]

/-- Position store fixture holding entries for both APs. -/
def cexPosState : PosMap := [("aa", (0, 0, 0)), ("bb", (0, 0, 0))]

/-- Configuration fixture capping the active set at one AP. -/
def cexConfig : RuntimeConfig := { defaultRuntimeConfig with maxAps := 1 }

/-- Concrete eigensolver stand-in: one zero row per input row (length
preserving, like `classicalMDS`). -/
def cexMds : List (List ℚ) → List Vec3 := fun m => m.map (fun _ => ((0 : ℚ), (0 : ℚ), (0 : ℚ)))

/-- Concrete fallback-position stand-in. -/
def cexFallback : String → ℚ → Vec3 := fun _ _ => (1, 1, 1)

/-- Concrete `Math.hypot` stand-in (its value is irrelevant to key sets). -/
def cexHypot : ℚ → ℚ → ℚ → ℚ := fun a b c => a + b + c

/-- Id-list fixture for the Cluster Detector analysis: the edge list below
mentions a node `x` that is not among the ids. -/
def cexClusterIds : List String := ["c", "d"]

/-- Edge-list fixture whose two qualifying edges join `c` and `d` only
through the foreign endpoint `x`. -/
def cexClusterEdges : List Edge := [⟨"x", "c", 1⟩, ⟨"x", "d", 1⟩]

/-- Number of universe nodes not yet visited; the decreasing part of the
fuel bound of `dfsLoop`. -/
def unvisCount (g : Graph) (visited : List String) : ℕ :=
  ((graphUniv g).filter (fun u => !(decide (u ∈ visited)))).length

/-- Invariant of the `buildClusters` main loop after processing the prefix
`pre` of the id list: some list `reps` enumerates, in first-visited order,
one root per multi-member component rooted in `pre` (`RepsOf`), the roots
are pairwise unconnected non-singletons listed in `pre`-order, the visited
set is exactly the union of the components of `pre`, the running cluster id
is `|reps| + 1`, both output maps are total on `ids`, and every stored
cluster id / size is either the untouched `0` / `1` (for ids whose
component has no root yet) or the 1-based index of the component's root in
`reps` / the component's cardinality (as the length of a duplicate-free
enumeration). -/
def clusterInv (ids : List String) (edges : List Edge) (minCorr : ℚ)
    (pre : List String) (st : ClusterState) : Prop :=
  ∃ reps : List String,
    RepsOf (connectedIn edges minCorr) pre reps ∧
    reps.Sublist pre ∧
    (∀ r ∈ reps, ¬ singletonComp (connectedIn edges minCorr) r) ∧
    List.Pairwise (fun a b => ¬ connectedIn edges minCorr a b) reps ∧
    (∀ w, w ∈ st.visited ↔ ∃ p ∈ pre, connectedIn edges minCorr p w) ∧
    st.nextClusterId = reps.length + 1 ∧
    (∀ v, v ∈ ids →
      (mapGet st.clusterById v).isSome ∧ (mapGet st.clusterSizeById v).isSome) ∧
    (∀ v k, mapGet st.clusterById v = some k →
      v ∈ ids ∧
        ((k = 0 ∧ ∀ r ∈ reps, ¬ connectedIn edges minCorr r v) ∨
         (∃ i : Fin reps.length, connectedIn edges minCorr (reps.get i) v ∧
           k = (i : ℕ) + 1))) ∧
    (∀ v s, mapGet st.clusterSizeById v = some s →
      v ∈ ids ∧
        ((s = 1 ∧ ∀ r ∈ reps, ¬ connectedIn edges minCorr r v) ∨
         ((∃ r ∈ reps, connectedIn edges minCorr r v) ∧
          ∃ enum : List String, enum.Nodup ∧
            (∀ w, w ∈ enum ↔ connectedIn edges minCorr v w) ∧ s = enum.length)))

/-- A supplied integer option value that `parseBoundedInt` rejects: not
numerically parseable, or out of bounds after `parseInt` truncation. -/
def invalidIntInput (v : Option ℚ) (lo hi : ℤ) : Prop :=
  v = none ∨ ∃ q, v = some q ∧ (jsParseInt q < lo ∨ hi < jsParseInt q)

/-- A supplied float option value that `parseBoundedFloat` rejects under a
non-default label: not numerically parseable, or out of bounds. -/
def invalidFloatInput (v : Option ℚ) (lo hi : ℚ) : Prop :=
  v = none ∨ ∃ q, v = some q ∧ (q < lo ∨ hi < q)

/-- Concrete record fixture used by witnesses: a tracked AP holding a full
window of 30 samples (values `0, 1, …, 29`, the last ones most recent). -/
def witnessRecordB : ApRecord :=
  { witnessRecordA with
    samples := (List.range 30).map (fun n => (n : ℚ))
    sampleWeights := List.replicate 30 1
    sampleEstimated := List.replicate 30 false }

theorem mem_insertByDesc {key : α → ℚ} {e a : α} {l : List α} :
    a ∈ insertByDesc key e l ↔ a = e ∨ a ∈ l := by
  induction l with
  | nil => simp [insertByDesc]
  | cons x xs ih =>
    by_cases h : key x < key e
    · simp [insertByDesc, h]
    · simp only [insertByDesc, if_neg h, List.mem_cons, ih]
      tauto

theorem mem_sortByDesc {key : α → ℚ} {a : α} {l : List α} :
    a ∈ sortByDesc key l ↔ a ∈ l := by
  induction l with
  | nil => simp [sortByDesc]
  | cons x xs ih =>
    simp only [sortByDesc, List.foldr_cons, mem_insertByDesc, List.mem_cons]
    rw [sortByDesc] at ih
    rw [ih]

theorem mem_of_mem_mapSet [DecidableEq κ] {m : List (κ × α)} {k : κ} {v : α}
    {p : κ × α} (h : p ∈ mapSet m k v) : p = (k, v) ∨ p ∈ m := by
  induction m with
  | nil => simpa [mapSet] using h
  | cons q rest ih =>
    by_cases hk : q.1 = k
    · rw [show (q :: rest : List (κ × α)) = (q.1, q.2) :: rest from rfl] at h
      simp only [mapSet, if_pos hk] at h
      rcases List.mem_cons.mp h with h | h
      · exact Or.inl h
      · exact Or.inr (List.mem_cons_of_mem _ h)
    · rw [show (q :: rest : List (κ × α)) = (q.1, q.2) :: rest from rfl] at h
      simp only [mapSet, if_neg hk] at h
      rcases List.mem_cons.mp h with h | h
      · exact Or.inr (by simp [h])
      · rcases ih h with h | h
        · exact Or.inl h
        · exact Or.inr (List.mem_cons_of_mem _ h)

/-- Generic preservation of a membership invariant along a left fold: if the
step function preserves `Q` over every element of the list, so does the whole
fold. -/
theorem foldl_mem_invariant {Q : γ → Prop} {step : List γ → β → List γ} :
    ∀ (l : List β) (acc : List γ),
      (∀ b ∈ l, ∀ acc', (∀ a ∈ acc', Q a) → ∀ a ∈ step acc' b, Q a) →
      (∀ a ∈ acc, Q a) → ∀ a ∈ l.foldl step acc, Q a := by
  intro l
  induction l with
  | nil => intro acc _ h; simpa using h
  | cons b bs ih =>
    intro acc hstep h
    exact ih (step acc b) (fun b' hb' => hstep b' (List.mem_cons_of_mem _ hb'))
      (hstep b (List.mem_cons_self _ _) acc h)

theorem candidatesFor_corr {n : ℕ} {m : List (List ℚ)} {minCorr : ℚ} {i : ℕ}
    {c : Cand} (hc : c ∈ candidatesFor n m minCorr i) : minCorr < c.corr := by
  unfold candidatesFor at hc
  rcases List.mem_filterMap.mp hc with ⟨j, _, hj⟩
  by_cases hij : i = j
  · simp [hij] at hj
  · rw [if_neg hij] at hj
    rcases Option.bind_eq_some.mp hj with ⟨q, _, hq2⟩
    by_cases hq : minCorr < q
    · rw [if_pos hq] at hq2
      cases hq2
      exact hq
    · rw [if_neg hq] at hq2
      exact absurd hq2 (by simp)

theorem edgeKeyUpdate_invariant {ids : List String} {i : ℕ} {minCorr : ℚ}
    {acc : List ((ℕ × ℕ) × Edge)} {c : Cand}
    (hacc : ∀ p ∈ acc, minCorr < p.2.corr) (hc : minCorr < c.corr) :
    ∀ p ∈ edgeKeyUpdate ids i acc c, minCorr < p.2.corr := by
  intro p hp
  simp only [edgeKeyUpdate] at hp
  split at hp
  · split at hp
    · rcases mem_of_mem_mapSet hp with h | h
      · rw [h]; exact hc
      · exact hacc p h
    · exact hacc p hp
  · rcases mem_of_mem_mapSet hp with h | h
    · rw [h]; exact hc
    · exact hacc p h

/-- C5.  Every edge returned by the Edge Selector
(`buildTopCorrelationEdges`) has correlation strictly above `minCorr`:
candidates are admitted only under the strict comparison
`corr > minCorr`, deduplication keeps one of the admitted candidates, and
sorting and truncation only drop edges.  This holds for every id list,
correlation matrix, `maxPerNode`, threshold and `maxEdges` cap. -/
theorem buildTopCorrelationEdges_strict (ids : List String)
    (corrMatrix : List (List ℚ)) (maxPerNode : ℕ) (minCorr : ℚ) (maxEdges : ℕ)
    (e : Edge) (he : e ∈ buildTopCorrelationEdges ids corrMatrix maxPerNode minCorr maxEdges) :
    minCorr < e.corr := by
  unfold buildTopCorrelationEdges at he
  have hfinal : ∀ p ∈ (List.range ids.length).foldl
      (fun acc i =>
        ((sortByDesc Cand.corr (candidatesFor ids.length corrMatrix minCorr i)).take
          maxPerNode).foldl (edgeKeyUpdate ids i) acc)
      [], minCorr < p.2.corr := by
    refine foldl_mem_invariant (List.range ids.length) [] ?_ (by simp)
    intro i _ acc hacc
    refine foldl_mem_invariant _ acc ?_ hacc
    intro c hcmem acc' hacc'
    have hcand : minCorr < c.corr :=
      candidatesFor_corr (mem_sortByDesc.mp (List.mem_of_mem_take hcmem))
    exact edgeKeyUpdate_invariant hacc' hcand
  have he' := List.mem_of_mem_take he
  rcases List.mem_map.mp (mem_sortByDesc.mp he') with ⟨p, hp, hpe⟩
  rw [← hpe]
  exact hfinal p hp

/-- Witness for C5 at a concrete input: with ids `a, b`, a correlation of
`0.9` between them and threshold `0.5`, the selector returns the `a`-`b`
edge and the theorem yields `0.5 < 0.9`. -/
theorem buildTopCorrelationEdges_strict_witness :
    (⟨"a", "b", 9/10⟩ : Edge) ∈
      buildTopCorrelationEdges ["a", "b"] [[1, 9/10], [9/10, 1]] 2 (1/2) 10 ∧
    (1/2 : ℚ) < (⟨"a", "b", 9/10⟩ : Edge).corr := by
  have hmem : (⟨"a", "b", 9/10⟩ : Edge) ∈
      buildTopCorrelationEdges ["a", "b"] [[1, 9/10], [9/10, 1]] 2 (1/2) 10 := by
    with_unfolding_all decide
  exact ⟨hmem, buildTopCorrelationEdges_strict _ _ _ _ _ _ hmem⟩

/-- C1 (counterexample).  A timestamp delta of 30 ms is positive and
finite, so the claim says no fallback occurs and the delay is
`clamp(round(30 / 1), 40, 15000) = 40`; but `computeReplayDelayMs` falls
back whenever the delta is not strictly greater than 40 ms, and the
fallback (1000 ms here) is itself speed-scaled and clamped, giving 1000. -/
theorem computeReplayDelayMs_counterexample :
    (0 : ℚ) < 1030 - 1000 ∧
    computeReplayDelayMs (some 1000) (some (some 1030)) 1 1000 = 1000 ∧
    specReplayDelayFormula (1030 - 1000) 1 = 40 ∧
    (1000 : ℚ) ≠ 40 := by
  refine ⟨by norm_num, ?_, ?_, by norm_num⟩
  · show clamp ((jsRound ((if (40 : ℚ) < 1030 - 1000 then 1030 - 1000 else 1000) /
      max 1 (1/10))) : ℚ) 40 15000 = 1000
    rw [if_neg (by norm_num : ¬ (40 : ℚ) < 1030 - 1000),
      max_eq_left (by norm_num : (1/10 : ℚ) ≤ 1), (by norm_num : (1000 : ℚ) / 1 = 1000),
      (by with_unfolding_all decide : jsRound 1000 = 1000)]
    rw [clamp, (by norm_num : ((1000 : ℤ) : ℚ) = 1000)]
    norm_num
  · rw [specReplayDelayFormula,
      (by norm_num : (1030 : ℚ) - 1000 = 30),
      max_eq_left (by norm_num : (1/10 : ℚ) ≤ 1), (by norm_num : (30 : ℚ) / 1 = 30),
      (by with_unfolding_all decide : jsRound 30 = 30)]
    rw [clamp, (by norm_num : ((30 : ℤ) : ℚ) = 30)]
    norm_num

/-- C1 (amended).  The pacing of `computeReplayDelayMs`: for finite
timestamps the delay is the spec's `clamp(round(base / max(speed, 0.1)),
40, 15000)` formula applied to `base`, where `base` is the timestamp delta
when it is strictly greater than 40 ms and otherwise the configured live
scan interval — so the fallback fires for every delta `≤ 40` (not only
non-positive ones) and is itself speed-scaled and clamped.  A non-finite
timestamp on either side also selects the fallback base, and a missing next
entry returns the scan interval unprocessed.  In particular a delta of
500 ms at speed 1 yields 500 ms. -/
theorem computeReplayDelayMs_pacing (ct nt speed fb : ℚ) :
    computeReplayDelayMs (some ct) (some (some nt)) speed fb
      = specReplayDelayFormula (if 40 < nt - ct then nt - ct else fb) speed ∧
    computeReplayDelayMs none (some (some nt)) speed fb
      = specReplayDelayFormula fb speed ∧
    computeReplayDelayMs (some ct) (some none) speed fb
      = specReplayDelayFormula fb speed ∧
    computeReplayDelayMs (some ct) none speed fb = fb ∧
    computeReplayDelayMs (some 1000) (some (some 1500)) 1 fb = 500 := by
  have hmain : ∀ a b s f : ℚ, computeReplayDelayMs (some a) (some (some b)) s f
      = specReplayDelayFormula (if 40 < b - a then b - a else f) s :=
    fun _ _ _ _ => rfl
  refine ⟨hmain ct nt speed fb, rfl, rfl, rfl, ?_⟩
  rw [hmain 1000 1500 1 fb, if_pos (by norm_num : (40 : ℚ) < 1500 - 1000),
    (by norm_num : (1500 : ℚ) - 1000 = 500), specReplayDelayFormula,
    max_eq_left (by norm_num : (1/10 : ℚ) ≤ 1), (by norm_num : (500 : ℚ) / 1 = 500),
    (by with_unfolding_all decide : jsRound 500 = 500)]
  rw [clamp, (by norm_num : ((500 : ℤ) : ℚ) = 500)]
  norm_num

/-- C4.  Whenever the aligned trailing overlap `min(len(xs), len(ys))` is
strictly below `minOverlap`, `weightedPearsonCorrelation` returns exactly
`0` — silently, for every pair of weight arrays and every `Math.sqrt`
behaviour. -/
theorem weightedPearsonCorrelation_insufficient (msqrt : ℚ → ℚ)
    (xs ys weightsX weightsY : List ℚ) (minOverlap : ℕ)
    (h : min xs.length ys.length < minOverlap) :
    weightedPearsonCorrelation msqrt xs ys weightsX weightsY minOverlap = 0 := by
  unfold weightedPearsonCorrelation
  rw [if_pos h]

/-- Witness for C4 at a concrete input: series of lengths 2 and 1 with the
default `minOverlap = 8`. -/
theorem weightedPearsonCorrelation_insufficient_witness :
    min ([1, 2] : List ℚ).length ([5] : List ℚ).length < 8 ∧
    weightedPearsonCorrelation id [1, 2] [5] [1, 1] [1] 8 = 0 :=
  ⟨by decide, weightedPearsonCorrelation_insufficient id [1, 2] [5] [1, 1] [1] 8 (by decide)⟩

/-- C10.  Every snapshot emitted by a replay tick carries the wall-clock
emission time as its top-level `t` — the recorded entry's original `t` is
never propagated, whatever it was — while the `aps`, `positions` and
`edges` payload fields are spread over from the recorded entry unchanged. -/
theorem emitReplaySnapshot_frame {A P E M : Type}
    (current : ReplaySnapshot A P E M) (nowMs : ℚ) (info : ReplayTickInfo) :
    (emitReplaySnapshot current nowMs info).t = some nowMs ∧
    (emitReplaySnapshot current nowMs info).aps = current.aps ∧
    (emitReplaySnapshot current nowMs info).positions = current.positions ∧
    (emitReplaySnapshot current nowMs info).edges = current.edges :=
  ⟨rfl, rfl, rfl, rfl⟩

theorem mapGet_mem [DecidableEq κ] {m : List (κ × α)} {k : κ} {v : α}
    (h : mapGet m k = some v) : (k, v) ∈ m := by
  induction m with
  | nil => simp [mapGet] at h
  | cons q rest ih =>
    rw [show (q :: rest : List (κ × α)) = (q.1, q.2) :: rest from rfl] at h ⊢
    by_cases hk : q.1 = k
    · rw [mapGet, if_pos hk] at h
      cases h
      rw [← hk]
      exact List.mem_cons_self _ _
    · rw [mapGet, if_neg hk] at h
      exact List.mem_cons_of_mem _ (ih h)

theorem ssidUpdate_samples (ap : ScanAp) (r1 : ApRecord) :
    (ssidUpdate ap r1).samples = r1.samples ∧
    (ssidUpdate ap r1).sampleWeights = r1.sampleWeights := by
  unfold ssidUpdate
  split
  · exact ⟨rfl, rfl⟩
  · exact ⟨rfl, rfl⟩

theorem sampleWindowPush_lengths (windowSize : ℕ) (rssi latestWeight : ℚ)
    (estimated : Bool) (r2 : ApRecord)
    (heq : r2.samples.length = r2.sampleWeights.length)
    (hle : r2.samples.length ≤ windowSize) :
    (sampleWindowPush windowSize rssi latestWeight estimated r2).samples.length
      = (sampleWindowPush windowSize rssi latestWeight estimated r2).sampleWeights.length ∧
    (sampleWindowPush windowSize rssi latestWeight estimated r2).samples.length ≤ windowSize := by
  simp only [sampleWindowPush]
  split
  · rename_i hgt
    simp only [List.length_tail, List.length_append, List.length_singleton] at hgt ⊢
    omega
  · rename_i hngt
    simp only [List.length_append, List.length_singleton] at hngt ⊢
    omega

theorem ingestAp_invariant (windowSize : ℕ) (now : ℚ) (ap : ScanAp) (st : ApMap)
    (h : ∀ p ∈ st, p.2.samples.length = p.2.sampleWeights.length ∧
      p.2.samples.length ≤ windowSize) :
    ∀ p ∈ ingestAp windowSize now st ap,
      p.2.samples.length = p.2.sampleWeights.length ∧ p.2.samples.length ≤ windowSize := by
  intro p hp
  unfold ingestAp at hp
  cases hr : ap.rssi with
  | none => rw [hr] at hp; exact h p hp
  | some rssi =>
    rw [hr] at hp
    simp only at hp
    rcases mem_of_mem_mapSet hp with hnew | hold
    · subst hnew
      have hrec : ((mapGet st ap.bssid).getD (freshRecord ap now rssi)).samples.length
            = ((mapGet st ap.bssid).getD (freshRecord ap now rssi)).sampleWeights.length ∧
          ((mapGet st ap.bssid).getD (freshRecord ap now rssi)).samples.length ≤ windowSize := by
        cases hg : mapGet st ap.bssid with
        | none => simp [freshRecord]
        | some r => simpa using h _ (mapGet_mem hg)
      set record := (mapGet st ap.bssid).getD (freshRecord ap now rssi) with hrecord
      have h1s : (latestFieldsUpdate now ap rssi record).samples = record.samples := rfl
      have h1w : (latestFieldsUpdate now ap rssi record).sampleWeights
          = record.sampleWeights := rfl
      have h2 := ssidUpdate_samples ap (latestFieldsUpdate now ap rssi record)
      refine sampleWindowPush_lengths _ _ _ _ _ ?_ ?_
      · rw [h2.1, h2.2, h1s, h1w]; exact hrec.1
      · rw [h2.1, h1s]; exact hrec.2
    · exact h p hold

/-- C9.  The Entity State Store invariant `samples.length ==
sampleWeights.length <= windowSize` is preserved by every store operation:
a full `applyScanResults` tick (batch ingestion with front eviction
followed by the staleness sweep), and `trimWindowForAllRecords` establishes
it for the new window on reconfiguration (given only that the two parallel
histories had equal length before). -/
theorem entityStoreInvariant (results : List ScanAp) (now : ℚ) (st : ApMap)
    (pos : PosMap) (windowSize : ℕ) (evictAfterMs : ℚ)
    (h : ∀ p ∈ st, p.2.samples.length = p.2.sampleWeights.length ∧
      p.2.samples.length ≤ windowSize) :
    (∀ p ∈ (applyScanResults st pos results now windowSize evictAfterMs).1,
      p.2.samples.length = p.2.sampleWeights.length ∧ p.2.samples.length ≤ windowSize) ∧
    (∀ (st' : ApMap) (w' : ℕ),
      (∀ p ∈ st', p.2.samples.length = p.2.sampleWeights.length) →
      ∀ p ∈ trimWindowForAllRecords w' st',
        p.2.samples.length = p.2.sampleWeights.length ∧ p.2.samples.length ≤ w') := by
  constructor
  · intro p hp
    have hfold : ∀ p ∈ results.foldl (ingestAp windowSize now) st,
        p.2.samples.length = p.2.sampleWeights.length ∧
        p.2.samples.length ≤ windowSize := by
      refine foldl_mem_invariant results st ?_ h
      intro ap _ acc hacc
      exact ingestAp_invariant windowSize now ap acc hacc
    unfold applyScanResults evictStale at hp
    exact hfold p (List.mem_of_mem_filter hp)
  · intro st' w' heq p hp
    unfold trimWindowForAllRecords at hp
    rcases List.mem_map.mp hp with ⟨q, hq, hqp⟩
    subst hqp
    have hq2 := heq q hq
    simp only [trimRecord]
    split <;> split <;> split <;>
      (constructor <;> (simp only [List.length_drop] at *; omega))

/-- Witness for C9 at a concrete input: one stored record with a full
window of 2 samples and weights, one fresh observation, window size 2. -/
theorem entityStoreInvariant_witness :
    (∀ p ∈ ([("aa", witnessRecordA)] : ApMap),
      p.2.samples.length = p.2.sampleWeights.length ∧ p.2.samples.length ≤ 2) ∧
    (∀ p ∈ (applyScanResults [("aa", witnessRecordA)] [] [witnessScanA] 10 2 30000).1,
      p.2.samples.length = p.2.sampleWeights.length ∧ p.2.samples.length ≤ 2) := by
  have h0 : ∀ p ∈ ([("aa", witnessRecordA)] : ApMap),
      p.2.samples.length = p.2.sampleWeights.length ∧ p.2.samples.length ≤ 2 := by
    intro p hp
    rcases List.mem_singleton.mp hp with rfl
    exact ⟨rfl, by decide⟩
  exact ⟨h0, (entityStoreInvariant [witnessScanA] 10 [("aa", witnessRecordA)] [] 2 30000 h0).1⟩

theorem jsParseInt_intCast (n : ℤ) : jsParseInt ((n : ℤ) : ℚ) = n := by
  unfold jsParseInt
  rw [Rat.num_intCast, Rat.den_intCast]
  exact Int.tdiv_one n

theorem mapGet_map_value [DecidableEq κ] (f : α → α) (m : List (κ × α)) (k : κ) :
    mapGet (m.map (fun p => (p.1, f p.2))) k = (mapGet m k).map f := by
  induction m with
  | nil => rfl
  | cons q rest ih =>
    by_cases hk : q.1 = k
    · simp only [List.map_cons, mapGet, if_pos hk]
      rfl
    · simp only [List.map_cons, mapGet, if_neg hk, ih]

/-- C8.  Shrinking (or setting) the window through `PUT /config` truncates
every stored record's sample and weight histories immediately, as part of
the very same configuration request: the handler returns the trimmed store,
each record keeping exactly its most recent `min(previousLength, w)`
entries (the `drop` of the older ones). -/
theorem windowShrinkImmediate (st : ApMap) (cfg : RuntimeConfig) (w : ℤ)
    (h8 : 8 ≤ w) (h240 : w ≤ 240) :
    putConfig { windowSize := some (some ((w : ℤ) : ℚ)) } cfg st
      = .ok ({ cfg with windowSize := w.toNat }, trimWindowForAllRecords w.toNat st) ∧
    ∀ k r, mapGet st k = some r →
      ∃ r', mapGet (trimWindowForAllRecords w.toNat st) k = some r' ∧
        r'.samples = r.samples.drop (r.samples.length - w.toNat) ∧
        r'.sampleWeights = r.sampleWeights.drop (r.sampleWeights.length - w.toNat) ∧
        r'.samples.length = min r.samples.length w.toNat ∧
        r'.sampleWeights.length = min r.sampleWeights.length w.toNat := by
  have hparse : parseBoundedInt (some ((w : ℤ) : ℚ)) 8 240 "windowSize" = .ok w := by
    simp only [parseBoundedInt, jsParseInt_intCast]
    rw [if_neg (by omega)]
  constructor
  · unfold putConfig parseOptionalInt parseOptionalFloat
    dsimp only
    rw [hparse]
    rfl
  · intro k r hr
    unfold trimWindowForAllRecords
    rw [mapGet_map_value, hr]
    refine ⟨trimRecord w.toNat r, rfl, ?_⟩
    simp only [trimRecord]
    split <;> split <;> split <;>
      (refine ⟨?_, ?_, ?_, ?_⟩ <;>
        simp only [List.length_drop] at * <;>
        first
          | omega
          | (rw [show r.samples.length - w.toNat = 0 by omega, List.drop_zero])
          | (rw [show r.sampleWeights.length - w.toNat = 0 by omega, List.drop_zero])
          | rfl)

/-- Witness for C8 at the spec's scenario: window reconfigured to 10 while
a record holds 30 samples — the request itself returns the store with that
record already trimmed. -/
theorem windowShrinkImmediate_witness :
    (8 : ℤ) ≤ 10 ∧ (10 : ℤ) ≤ 240 ∧
    putConfig { windowSize := some (some ((10 : ℤ) : ℚ)) } defaultRuntimeConfig
        [("aa", witnessRecordB)]
      = .ok ({ defaultRuntimeConfig with windowSize := (10 : ℤ).toNat },
          trimWindowForAllRecords (10 : ℤ).toNat [("aa", witnessRecordB)]) :=
  ⟨by decide, by decide,
    (windowShrinkImmediate [("aa", witnessRecordB)] defaultRuntimeConfig 10
      (by decide) (by decide)).1⟩

theorem parseBoundedInt_invalid {v : Option ℚ} {lo hi : ℤ} (label : String)
    (h : invalidIntInput v lo hi) :
    ∃ m, parseBoundedInt v lo hi label = .error m := by
  rcases h with rfl | ⟨q, rfl, hq⟩
  · exact ⟨label ++ " must be an integer", rfl⟩
  · refine ⟨label ++ " must be between the configured bounds", ?_⟩
    simp only [parseBoundedInt]
    rw [if_pos hq]

theorem parseBoundedFloat_invalid {v : Option ℚ} {lo hi : ℚ} (label : String)
    (h : invalidFloatInput v lo hi) :
    ∃ m, parseBoundedFloat v lo hi label = .error m := by
  rcases h with rfl | ⟨q, rfl, hq⟩
  · exact ⟨label ++ " must be a number", rfl⟩
  · refine ⟨label ++ " must be between the configured bounds", ?_⟩
    simp only [parseBoundedFloat]
    rw [if_pos hq]

theorem except_bind_error_of {α β : Type} (e : Except String α)
    (f : α → Except String β) (hf : ∀ x, ∃ m, f x = .error m) :
    ∃ m, e.bind f = .error m := by
  cases e with
  | error m => exact ⟨m, rfl⟩
  | ok x => exact hf x

/-- C7 (counterexample).  The request `scanIntervalMs = 10000.5` is outside
the claimed bound `[300, 10000]`, yet the handler accepts it: `parseInt`
truncates `10000.5` to `10000` before the bounds check, so the request
succeeds and sets `scanIntervalMs` to 10000 instead of being rejected. -/
theorem putConfig_counterexample :
    (10000 : ℚ) < 20001/2 ∧
    putConfig { scanIntervalMs := some (some (20001/2 : ℚ)) } defaultRuntimeConfig []
      = .ok ({ defaultRuntimeConfig with scanIntervalMs := ((10000 : ℤ) : ℚ) }, []) := by
  constructor
  · norm_num
  · have hparse : parseBoundedInt (some (20001/2 : ℚ)) 300 10000 "scanIntervalMs"
        = .ok 10000 := by
      simp only [parseBoundedInt]
      rw [show jsParseInt (20001/2 : ℚ) = 10000 from by with_unfolding_all decide]
      rw [if_neg (by decide)]
    unfold putConfig parseOptionalInt parseOptionalFloat
    dsimp only
    rw [hparse]
    rfl

/-- C7 (amended).  Whenever any supplied configuration option fails its
validation as the handler performs it — a non-numeric value, an integer
option whose `parseInt`-truncated value falls outside its bounds
(`scanIntervalMs` [300,10000], `windowSize` [8,240], `minOverlap` [4,80]),
or `edgeThreshold` outside [0.05,0.98] — the whole request is rejected with
an error and no pipeline state is mutated: the prior configuration stays in
effect and no record history is truncated, even when the other options in
the same request were valid.  (Raw fractional values that truncate into
bounds, such as `10000.5`, are accepted — that is the sole divergence from
the claim as written.) -/
theorem putConfig_rejects_invalid (inc : IncomingConfig) (cfg : RuntimeConfig)
    (st : ApMap)
    (h : (∃ v, inc.scanIntervalMs = some v ∧ invalidIntInput v 300 10000) ∨
         (∃ v, inc.windowSize = some v ∧ invalidIntInput v 8 240) ∨
         (∃ v, inc.edgeThreshold = some v ∧ invalidFloatInput v (5/100) (98/100)) ∨
         (∃ v, inc.minOverlap = some v ∧ invalidIntInput v 4 80)) :
    ∃ msg, putConfig inc cfg st = .error msg := by
  unfold putConfig
  rcases h with ⟨v, hv, hbad⟩ | ⟨v, hv, hbad⟩ | ⟨v, hv, hbad⟩ | ⟨v, hv, hbad⟩
  · rcases parseBoundedInt_invalid "scanIntervalMs" hbad with ⟨m, hm⟩
    refine ⟨m, ?_⟩
    rw [hv]
    simp only [parseOptionalInt, hm]
    rfl
  · refine except_bind_error_of _ _ (fun u1 => ?_)
    rcases parseBoundedInt_invalid "windowSize" hbad with ⟨m, hm⟩
    refine ⟨m, ?_⟩
    rw [hv]
    simp only [parseOptionalInt, hm]
    rfl
  · refine except_bind_error_of _ _ (fun u1 => ?_)
    refine except_bind_error_of _ _ (fun u2 => ?_)
    rcases parseBoundedFloat_invalid "edgeThreshold" hbad with ⟨m, hm⟩
    refine ⟨m, ?_⟩
    rw [hv]
    simp only [parseOptionalFloat, hm]
    rfl
  · refine except_bind_error_of _ _ (fun u1 => ?_)
    refine except_bind_error_of _ _ (fun u2 => ?_)
    refine except_bind_error_of _ _ (fun u3 => ?_)
    rcases parseBoundedInt_invalid "minOverlap" hbad with ⟨m, hm⟩
    refine ⟨m, ?_⟩
    rw [hv]
    simp only [parseOptionalInt, hm]
    rfl

/-- Witness for C7 at a concrete input: a request with a valid
`scanIntervalMs = 500` and an invalid `windowSize = 7` is rejected as a
whole. -/
theorem putConfig_rejects_invalid_witness :
    invalidIntInput (some (7 : ℚ)) 8 240 ∧
    ∃ msg, putConfig
        { scanIntervalMs := some (some (500 : ℚ)), windowSize := some (some (7 : ℚ)) }
        defaultRuntimeConfig [] = .error msg := by
  have hbad : invalidIntInput (some (7 : ℚ)) 8 240 :=
    Or.inr ⟨7, rfl, Or.inl (by with_unfolding_all decide)⟩
  exact ⟨hbad, putConfig_rejects_invalid _ defaultRuntimeConfig []
    (Or.inr (Or.inl ⟨some (7 : ℚ), rfl, hbad⟩))⟩

/-- C2.  An analyze session that observes one AP in its first scan and then
loses it to staleness eviction before the end (`evictAfterMs = 30000`, the
second scan comes 50 s later and returns nothing) has `apsObserved = 1` but
`apsTracked = 0`, and `runAnalyzeSession` therefore throws the
zero-observations failure (`exitCode 2`, message "Analyze run completed
with 0 networks observed") even though one distinct entity was observed —
the run the specification requires to succeed, and whose failure message
contradicts what actually happened. -/
theorem runAnalyzeSession_observedButEvicted :
    observedBssidsOf [([witnessScanA], 0), ([], 50000)] = ["aa"] ∧
    runAnalyzeSessionModel [([witnessScanA], 0), ([], 50000)] 50000 defaultRuntimeConfig
      = .error "Analyze run completed with 0 networks observed" := by
  constructor
  · with_unfolding_all decide
  · with_unfolding_all rfl

theorem mapGet_mapSet_isSome [DecidableEq κ] (m : List (κ × α)) (k k' : κ) (v : α) :
    (mapGet (mapSet m k v) k').isSome ↔ k' = k ∨ (mapGet m k').isSome := by
  induction m with
  | nil =>
    by_cases h : k = k'
    · subst h
      simp [mapSet, mapGet]
    · have h' : ¬ k' = k := fun hh => h hh.symm
      simp [mapSet, mapGet, h, h']
  | cons q rest ih =>
    rw [show (q :: rest : List (κ × α)) = (q.1, q.2) :: rest from rfl]
    by_cases hq : q.1 = k
    · simp only [mapSet, if_pos hq, mapGet]
      by_cases hk : k = k'
      · subst hk
        simp [hq]
      · have hk' : ¬ k' = k := fun hh => hk hh.symm
        rw [if_neg hk, if_neg (hq ▸ hk)]
        simp [hk']
    · simp only [mapSet, if_neg hq, mapGet]
      by_cases hk : q.1 = k'
      · simp [hk]
      · rw [if_neg hk, if_neg hk, ih]

theorem foldl_mapSet_isSome {f : ℕ → String} {step : PosMap → ℕ → PosMap}
    (hstep : ∀ res i k', (mapGet (step res i) k').isSome
      ↔ k' = f i ∨ (mapGet res k').isSome) :
    ∀ (l : List ℕ) (res : PosMap) (k : String),
      (mapGet (l.foldl step res) k).isSome ↔ (mapGet res k).isSome ∨ ∃ i ∈ l, f i = k := by
  intro l
  induction l with
  | nil => intro res k; simp
  | cons a rest ih =>
    intro res k
    rw [List.foldl_cons, ih, hstep]
    constructor
    · rintro ((h | h) | ⟨j, hj, hjk⟩)
      · exact Or.inr ⟨a, List.mem_cons_self _ _, h.symm⟩
      · exact Or.inl h
      · exact Or.inr ⟨j, List.mem_cons_of_mem _ hj, hjk⟩
    · rintro (h | ⟨j, hj, hjk⟩)
      · exact Or.inl (Or.inr h)
      · rcases List.mem_cons.mp hj with heq | hj'
        · subst heq
          exact Or.inl (Or.inl hjk.symm)
        · exact Or.inr ⟨j, hj', hjk⟩

theorem range_getD_mem_iff (l : List String) (k : String) :
    (∃ i ∈ List.range l.length, (l.get? i).getD "" = k) ↔ k ∈ l := by
  constructor
  · rintro ⟨i, hi, hk⟩
    have hlt : i < l.length := List.mem_range.mp hi
    rw [List.get?_eq_get hlt] at hk
    simp only [Option.getD_some] at hk
    exact hk ▸ List.get_mem l i hlt
  · intro hk
    rcases List.mem_iff_get.mp hk with ⟨⟨i, hlt⟩, hik⟩
    refine ⟨i, List.mem_range.mpr hlt, ?_⟩
    rw [List.get?_eq_get hlt]
    simpa using hik

theorem mapGet_filter_notin_keys (pos : PosMap) (sk : List String) (id : String) :
    mapGet (pos.filter (fun q => !(decide (q.1 ∈ sk)))) id
      = if id ∈ sk then none else mapGet pos id := by
  induction pos with
  | nil => by_cases h : id ∈ sk <;> simp [mapGet, h]
  | cons q rest ih =>
    rw [show (q :: rest : PosMap) = (q.1, q.2) :: rest from rfl]
    by_cases hq : q.1 ∈ sk
    · rw [List.filter_cons_of_neg (by simpa using hq), ih]
      by_cases hid : id ∈ sk
      · simp [hid]
      · have hne : q.1 ≠ id := fun hh => hid (hh ▸ hq)
        simp [hid, mapGet, hne]
    · rw [List.filter_cons_of_pos (by simpa using hq)]
      by_cases hqid : q.1 = id
      · subst hqid
        simp [mapGet, hq]
      · simp only [mapGet, if_neg hqid, ih]

/-- C3 (counterexample).  With two fresh (non-stale) records and
`maxAps = 1`, the weaker AP `bb` stays in the Entity State Store but falls
outside the tick's active set; `buildSnapshot`'s position-store replacement
(`positionState.clear()` plus re-inserting only the embedder's output)
deletes `bb`'s position entry even though `bb` was not evicted —
contradicting the claim that such entries survive until actual eviction. -/
theorem positionStore_counterexample :
    (mapGet cexApState "bb").isSome = true ∧
    (1000 : ℚ) - cexRecordLo.lastSeen ≤ cexConfig.evictAfterMs ∧
    (mapGet cexPosState "bb").isSome = true ∧
    mapGet (snapshotPositionUpdate id cexMds cexFallback cexHypot
      cexApState cexPosState 1000 cexConfig) "bb" = none := by
  refine ⟨rfl, by with_unfolding_all decide, rfl, ?_⟩
  with_unfolding_all rfl

/-- C3 (amended).  The position store does not share the entity store's
eviction lifecycle at snapshot time: after every `buildSnapshot`, the
position store holds an entry for an id exactly when that id is in the
tick's active set (non-stale records, ranked by latest signal, capped at
`maxAps`) — entries of tracked-but-inactive entities are dropped at each
snapshot.  Outside snapshots, the ingest-time staleness sweep removes a
position entry exactly for the ids it evicts from the entity store.  The
`hmds` hypothesis restricts the abstract eigensolver parameter to
`classicalMDS`'s length contract (one coordinate row per matrix row), the
regime in which the model and the JS agree. -/
theorem positionStoreLifecycle (msqrt : ℚ → ℚ) (mds : List (List ℚ) → List Vec3)
    (fallbackPos : String → ℚ → Vec3) (hypot3 : ℚ → ℚ → ℚ → ℚ)
    (st : ApMap) (pos : PosMap) (now : ℚ) (cfg : RuntimeConfig) (id : String)
    (hmds : ∀ m, (mds m).length = m.length) :
    ((mapGet (snapshotPositionUpdate msqrt mds fallbackPos hypot3 st pos now cfg) id).isSome
      ↔ id ∈ (activeRecords st now cfg.evictAfterMs cfg.maxAps).map (·.bssid)) ∧
    ∀ (stIngested : ApMap) (e : ℚ),
      mapGet (evictStale stIngested pos now e).2 id
        = if id ∈ staleKeys stIngested now e then none else mapGet pos id := by
  constructor
  · unfold snapshotPositionUpdate embedPositions
    set ids := (activeRecords st now cfg.evictAfterMs cfg.maxAps).map (·.bssid) with hids
    by_cases hn : ids.length = 0
    · rw [if_pos hn]
      rw [List.length_eq_zero] at hn
      simp [mapGet, hn]
    · rw [if_neg hn]
      rw [foldl_mapSet_isSome (f := fun i => (ids.get? i).getD "")
        (fun res i k' => mapGet_mapSet_isSome res _ k' _) (List.range ids.length) [] id]
      simp only [mapGet, Option.isSome_none, Bool.false_eq_true, false_or]
      exact range_getD_mem_iff ids id
  · intro stIngested e
    unfold evictStale
    exact mapGet_filter_notin_keys pos (staleKeys stIngested now e) id

/-- Witness for C3's amended lifecycle at the concrete fixture: the
stronger AP `aa` is in the active set and keeps a position entry. -/
theorem positionStoreLifecycle_witness :
    (∀ m, (cexMds m).length = m.length) ∧
    (((mapGet (snapshotPositionUpdate id cexMds cexFallback cexHypot
        cexApState cexPosState 1000 cexConfig) "aa").isSome
      ↔ "aa" ∈ (activeRecords cexApState 1000 cexConfig.evictAfterMs
          cexConfig.maxAps).map (·.bssid)) ∧
    ∀ (stIngested : ApMap) (e : ℚ),
      mapGet (evictStale stIngested cexPosState 1000 e).2 "aa"
        = if "aa" ∈ staleKeys stIngested 1000 e then none
          else mapGet cexPosState "aa") := by
  have hmds : ∀ m, (cexMds m).length = m.length := fun m => by
    simp [cexMds]
  exact ⟨hmds, positionStoreLifecycle id cexMds cexFallback cexHypot
    cexApState cexPosState 1000 cexConfig "aa" hmds⟩

/-- C6 (counterexample).  With ids `c, d` and qualifying edges `x-c`,
`x-d` whose shared endpoint `x` is not an id, `c` and `d` lie in the same
connected component of the qualifying-edge graph (of size ≥ 2, since they
are distinct), yet `buildClusters` assigns them different cluster ids:
`c`'s traversal visits `x` (via `c`'s adjacency set) but `x` carries no
adjacency of its own (`graph.get(x)` is undefined), so `d` is never
reached and stays a singleton with cluster id 0 while `c` gets cluster
id 1. -/
theorem buildClusters_counterexample :
    connectedIn cexClusterEdges 0 "c" "d" ∧
    ("c" : String) ≠ "d" ∧
    mapGet (buildClusters cexClusterIds cexClusterEdges 0).clusterById "c"
      ≠ mapGet (buildClusters cexClusterIds cexClusterEdges 0).clusterById "d" := by
  refine ⟨?_, by decide, by with_unfolding_all decide⟩
  have h1 : adjacentIn cexClusterEdges 0 "c" "x" :=
    ⟨⟨"x", "c", 1⟩, by decide, Or.inr ⟨rfl, rfl⟩⟩
  have h2 : adjacentIn cexClusterEdges 0 "x" "d" :=
    ⟨⟨"x", "d", 1⟩, by decide, Or.inl ⟨rfl, rfl⟩⟩
  exact Relation.ReflTransGen.tail (Relation.ReflTransGen.single h1) h2

theorem mapGet_mapSet_self [DecidableEq κ] (m : List (κ × α)) (k : κ) (v : α) :
    mapGet (mapSet m k v) k = some v := by
  induction m with
  | nil => simp [mapSet, mapGet]
  | cons q rest ih =>
    rw [show (q :: rest : List (κ × α)) = (q.1, q.2) :: rest from rfl]
    by_cases hq : q.1 = k
    · simp [mapSet, hq, mapGet]
    · simp [mapSet, hq, mapGet, ih]

theorem mapGet_mapSet_ne [DecidableEq κ] (m : List (κ × α)) (k k' : κ) (v : α)
    (h : k' ≠ k) : mapGet (mapSet m k v) k' = mapGet m k' := by
  have hkk : ¬ (k = k') := fun hh => h hh.symm
  induction m with
  | nil => simp [mapSet, mapGet, hkk]
  | cons q rest ih =>
    rw [show (q :: rest : List (κ × α)) = (q.1, q.2) :: rest from rfl]
    by_cases hq : q.1 = k
    · have hq2 : ¬ q.1 = k' := by rw [hq]; exact hkk
      simp [mapSet, hq, mapGet, hkk, hq2]
    · by_cases hk : q.1 = k'
      · simp [mapSet, hq, mapGet, hk, hkk, h]
      · simp [mapSet, hq, mapGet, hk, ih]

theorem mapGet_append [DecidableEq κ] (m m' : List (κ × α)) (k : κ) :
    mapGet (m ++ m') k = match mapGet m k with
      | some v => some v
      | none => mapGet m' k := by
  induction m with
  | nil => simp [mapGet]
  | cons q rest ih =>
    rw [show (q :: rest : List (κ × α)) = (q.1, q.2) :: rest from rfl]
    by_cases hq : q.1 = k
    · simp [mapGet, hq]
    · simp [mapGet, hq, ih]

theorem mapGet_dedupInit [DecidableEq κ] (c : α) :
    ∀ (keys : List κ) (m0 : List (κ × α)) (u : κ),
      mapGet (keys.foldl (fun m k => if (mapGet m k).isSome then m else m ++ [(k, c)]) m0) u
        = match mapGet m0 u with
          | some v => some v
          | none => if u ∈ keys then some c else none := by
  intro keys
  induction keys with
  | nil =>
    intro m0 u
    cases h : mapGet m0 u <;> simp [h]
  | cons k ks ih =>
    intro m0 u
    rw [List.foldl_cons]
    by_cases hk : (mapGet m0 k).isSome
    · rw [if_pos hk, ih]
      cases h : mapGet m0 u with
      | some v => simp
      | none =>
        simp only
        by_cases hu : u = k
        · subst hu
          rw [h] at hk
          simp at hk
        · by_cases hks : u ∈ ks
          · simp [hks, hu]
          · simp [hks, hu]
    · rw [if_neg hk, ih]
      cases h : mapGet m0 u with
      | some v =>
        rw [mapGet_append, h]
      | none =>
        rw [mapGet_append, h]
        simp only
        by_cases hu : u = k
        · subst hu
          simp [mapGet]
        · have hn : ¬ (k = u) := fun hh => hu hh.symm
          have : mapGet [(k, c)] u = none := by simp [mapGet, hn]
          rw [this]
          simp only [List.mem_cons]
          by_cases hks : u ∈ ks
          · simp [hks, hu]
          · simp [hks, hu]

theorem mapGet_foldl_mapSet_const [DecidableEq κ] (c : α) :
    ∀ (l : List κ) (m : List (κ × α)) (k : κ),
      mapGet (l.foldl (fun m v => mapSet m v c) m) k
        = if k ∈ l then some c else mapGet m k := by
  intro l
  induction l with
  | nil => intro m k; simp
  | cons v vs ih =>
    intro m k
    rw [List.foldl_cons, ih]
    by_cases hvs : k ∈ vs
    · simp [hvs]
    · rw [if_neg hvs]
      by_cases hv : k = v
      · subst hv
        simp [mapGet_mapSet_self]
      · simp [hv, hvs, mapGet_mapSet_ne m v k c hv]

theorem setAdd_mem {s : List String} {v w : String} :
    w ∈ setAdd s v ↔ w ∈ s ∨ w = v := by
  by_cases h : v ∈ s
  · constructor
    · intro hw
      exact Or.inl (by simpa [setAdd, h] using hw)
    · intro hw
      rcases hw with hw | hw
      · simpa [setAdd, h] using hw
      · subst hw; simpa [setAdd, h] using h
  · simp [setAdd, h]

theorem mapGet_graphAddNeighbor_ne (g : Graph) (k v u : String) (h : u ≠ k) :
    mapGet (graphAddNeighbor g k v) u = mapGet g u := by
  induction g with
  | nil => simp [graphAddNeighbor]
  | cons q rest ih =>
    rw [show (q :: rest : Graph) = (q.1, q.2) :: rest from rfl]
    by_cases hq : q.1 = k
    · have hq2 : ¬ q.1 = u := by rw [hq]; exact fun hh => h hh.symm
      simp only [graphAddNeighbor, List.map_cons] at ih ⊢
      rw [if_pos hq]
      simp only [mapGet, if_neg hq2]
      exact ih
    · simp only [graphAddNeighbor, List.map_cons] at ih ⊢
      rw [if_neg hq]
      by_cases hu : q.1 = u
      · simp [mapGet, hu]
      · simp only [mapGet, if_neg hu]
        exact ih

theorem mapGet_graphAddNeighbor_self (g : Graph) (k v : String) :
    mapGet (graphAddNeighbor g k v) k
      = Option.map (fun s => setAdd s v) (mapGet g k) := by
  induction g with
  | nil => simp [graphAddNeighbor, mapGet]
  | cons q rest ih =>
    rw [show (q :: rest : Graph) = (q.1, q.2) :: rest from rfl]
    by_cases hq : q.1 = k
    · simp only [graphAddNeighbor, List.map_cons]
      rw [if_pos hq]
      simp [mapGet, hq]
    · simp only [graphAddNeighbor, List.map_cons] at ih ⊢
      rw [if_neg hq]
      simp only [mapGet, if_neg hq]
      exact ih

theorem mapGet_graphAddNeighbor_none {g : Graph} {k v u : String}
    (h : mapGet g u = none) : mapGet (graphAddNeighbor g k v) u = none := by
  by_cases hk : u = k
  · subst hk
    rw [mapGet_graphAddNeighbor_self, h]
    rfl
  · rw [mapGet_graphAddNeighbor_ne g k v u hk, h]

theorem mapGet_initGraph (ids : List String) (u : String) :
    mapGet (initGraph ids) u = if u ∈ ids then some [] else none := by
  rw [initGraph, mapGet_dedupInit]
  rfl

theorem graphStep_mem {g : Graph} {u : String} {s : List String} (e : Edge)
    (h : mapGet g u = some s) :
    ∃ t, mapGet (graphAddNeighbor (graphAddNeighbor g e.a e.b) e.b e.a) u = some t ∧
      ∀ w, w ∈ t ↔ w ∈ s ∨ (e.a = u ∧ e.b = w) ∨ (e.b = u ∧ e.a = w) := by
  by_cases ha : u = e.a
  · by_cases hb : u = e.b
    · refine ⟨setAdd (setAdd s e.b) e.a, ?_, ?_⟩
      · rw [← hb, mapGet_graphAddNeighbor_self, ← ha, mapGet_graphAddNeighbor_self, h]
        rfl
      · intro w
        rw [setAdd_mem, setAdd_mem]
        constructor
        · rintro ((hw | hw) | hw)
          · exact Or.inl hw
          · exact Or.inr (Or.inl ⟨ha.symm, hw.symm⟩)
          · exact Or.inr (Or.inr ⟨hb.symm, hw.symm⟩)
        · rintro (hw | ⟨_, hw⟩ | ⟨_, hw⟩)
          · exact Or.inl (Or.inl hw)
          · exact Or.inl (Or.inr hw.symm)
          · exact Or.inr hw.symm
    · refine ⟨setAdd s e.b, ?_, ?_⟩
      · rw [mapGet_graphAddNeighbor_ne _ e.b e.a u hb, ← ha,
          mapGet_graphAddNeighbor_self, h]
        rfl
      · intro w
        rw [setAdd_mem]
        constructor
        · rintro (hw | hw)
          · exact Or.inl hw
          · exact Or.inr (Or.inl ⟨ha.symm, hw.symm⟩)
        · rintro (hw | ⟨_, hw⟩ | ⟨hbu, _⟩)
          · exact Or.inl hw
          · exact Or.inr hw.symm
          · exact absurd hbu.symm hb
  · by_cases hb : u = e.b
    · refine ⟨setAdd s e.a, ?_, ?_⟩
      · rw [← hb, mapGet_graphAddNeighbor_self,
          mapGet_graphAddNeighbor_ne g e.a u u ha, h]
        rfl
      · intro w
        rw [setAdd_mem]
        constructor
        · rintro (hw | hw)
          · exact Or.inl hw
          · exact Or.inr (Or.inr ⟨hb.symm, hw.symm⟩)
        · rintro (hw | ⟨hau, _⟩ | ⟨_, hw⟩)
          · exact Or.inl hw
          · exact absurd hau.symm ha
          · exact Or.inr hw.symm
    · refine ⟨s, ?_, ?_⟩
      · rw [mapGet_graphAddNeighbor_ne _ e.b e.a u hb,
          mapGet_graphAddNeighbor_ne _ e.a e.b u ha, h]
      · intro w
        constructor
        · exact Or.inl
        · rintro (hw | ⟨hau, _⟩ | ⟨hbu, _⟩)
          · exact hw
          · exact absurd hau.symm ha
          · exact absurd hbu.symm hb

theorem graphFold_none (es : List Edge) :
    ∀ (g0 : Graph) (u : String), mapGet g0 u = none →
      mapGet (es.foldl
        (fun g e => graphAddNeighbor (graphAddNeighbor g e.a e.b) e.b e.a) g0) u
        = none := by
  induction es with
  | nil => intro g0 u h; exact h
  | cons e es ih =>
    intro g0 u h
    rw [List.foldl_cons]
    exact ih _ u (mapGet_graphAddNeighbor_none (mapGet_graphAddNeighbor_none h))

theorem graphFold_mem (es : List Edge) :
    ∀ (g0 : Graph) (u : String) (s : List String), mapGet g0 u = some s →
      ∃ t, mapGet (es.foldl
          (fun g e => graphAddNeighbor (graphAddNeighbor g e.a e.b) e.b e.a) g0) u
          = some t ∧
        ∀ w, w ∈ t ↔ w ∈ s ∨
          ∃ e ∈ es, (e.a = u ∧ e.b = w) ∨ (e.b = u ∧ e.a = w) := by
  induction es with
  | nil =>
    intro g0 u s h
    exact ⟨s, h, by simp⟩
  | cons e es ih =>
    intro g0 u s h
    obtain ⟨s1, hs1, hmem1⟩ := graphStep_mem e h
    obtain ⟨t, ht, hmemt⟩ := ih _ u s1 hs1
    refine ⟨t, by rw [List.foldl_cons]; exact ht, ?_⟩
    intro w
    rw [hmemt w, hmem1 w]
    constructor
    · rintro ((hw | hw) | ⟨f, hf, hfw⟩)
      · exact Or.inl hw
      · exact Or.inr ⟨e, List.mem_cons_self e es, hw⟩
      · exact Or.inr ⟨f, List.mem_cons_of_mem e hf, hfw⟩
    · rintro (hw | ⟨f, hf, hfw⟩)
      · exact Or.inl (Or.inl hw)
      · rcases List.mem_cons.mp hf with hfe | hfes
      
        · exact Or.inl (Or.inr (hfe ▸ hfw))
        · exact Or.inr ⟨f, hfes, hfw⟩

theorem neighborsOf_buildGraph_mem {ids : List String} {edges : List Edge}
    {minCorr : ℚ} {u : String} (hu : u ∈ ids) (w : String) :
    w ∈ neighborsOf (buildGraph ids edges minCorr) u ↔
      adjacentIn edges minCorr u w := by
  have hinit : mapGet (initGraph ids) u = some [] := by
    rw [mapGet_initGraph, if_pos hu]
  obtain ⟨t, ht, hmem⟩ := graphFold_mem (qualifyingEdges edges minCorr)
    (initGraph ids) u [] hinit
  rw [neighborsOf, buildGraph, ht]
  have := hmem w
  simp only [List.not_mem_nil, false_or] at this
  rw [show (some t).getD ([] : List String) = t from rfl, adjacentIn, this]
  constructor <;> (rintro ⟨e, he, hc⟩; exact ⟨e, he, hc.imp id And.symm⟩)

theorem neighborsOf_buildGraph_notin {ids : List String} {edges : List Edge}
    {minCorr : ℚ} {u : String} (hu : u ∉ ids) :
    neighborsOf (buildGraph ids edges minCorr) u = [] := by
  have hinit : mapGet (initGraph ids) u = none := by
    rw [mapGet_initGraph, if_neg hu]
  rw [neighborsOf, buildGraph, graphFold_none _ _ _ hinit]
  rfl

theorem adjacentIn_mem_left {ids : List String} {edges : List Edge}
    {minCorr : ℚ} {u w : String}
    (hE : ∀ e ∈ qualifyingEdges edges minCorr, e.a ∈ ids ∧ e.b ∈ ids)
    (h : adjacentIn edges minCorr u w) : u ∈ ids := by
  obtain ⟨e, he, hc⟩ := h
  rcases hc with ⟨hc, _⟩ | ⟨_, hc⟩
  · exact hc ▸ (hE e he).1
  · exact hc ▸ (hE e he).2

theorem neighborsOf_buildGraph {ids : List String} {edges : List Edge}
    {minCorr : ℚ}
    (hE : ∀ e ∈ qualifyingEdges edges minCorr, e.a ∈ ids ∧ e.b ∈ ids)
    (u w : String) :
    w ∈ neighborsOf (buildGraph ids edges minCorr) u ↔
      adjacentIn edges minCorr u w := by
  by_cases hu : u ∈ ids
  · exact neighborsOf_buildGraph_mem hu w
  · rw [neighborsOf_buildGraph_notin hu]
    simp only [List.not_mem_nil, false_iff]
    exact fun h => hu (adjacentIn_mem_left hE h)

theorem adjacentIn_symm {edges : List Edge} {minCorr : ℚ} {u v : String}
    (h : adjacentIn edges minCorr u v) : adjacentIn edges minCorr v u := by
  obtain ⟨e, he, hc⟩ := h
  exact ⟨e, he, hc.symm⟩

theorem connectedIn_symm {edges : List Edge} {minCorr : ℚ} {u v : String}
    (h : connectedIn edges minCorr u v) : connectedIn edges minCorr v u :=
  Relation.ReflTransGen.symmetric (fun _ _ hh => adjacentIn_symm hh) h

theorem connectedIn_mem_right {ids : List String} {edges : List Edge}
    {minCorr : ℚ} {u w : String}
    (hE : ∀ e ∈ qualifyingEdges edges minCorr, e.a ∈ ids ∧ e.b ∈ ids)
    (hu : u ∈ ids) (h : connectedIn edges minCorr u w) : w ∈ ids := by
  induction h with
  | refl => exact hu
  | tail _ hadj ih => exact adjacentIn_mem_left hE (adjacentIn_symm hadj)

theorem neighborsOf_subset_graphUniv {g : Graph} {u n : String}
    (h : n ∈ neighborsOf g u) : n ∈ graphUniv g := by
  rw [neighborsOf] at h
  cases hg : mapGet g u with
  | none => rw [hg] at h; exact absurd h (List.not_mem_nil n)
  | some s =>
    rw [hg] at h
    have hmem : (u, s) ∈ g := mapGet_mem hg
    rw [graphUniv]
    exact List.mem_append_right _
      (List.mem_flatMap.mpr ⟨(u, s), hmem, h⟩)

theorem dfsPush_spec (ns : List String) :
    ∀ (st vis : List String),
      ∃ pushed : List String,
        (ns.foldl (fun (sv : List String × List String) n =>
            if n ∈ sv.2 then sv else (n :: sv.1, sv.2 ++ [n])) (st, vis))
          = (pushed.reverse ++ st, vis ++ pushed) ∧
        pushed.Nodup ∧
        (∀ n ∈ pushed, n ∈ ns ∧ n ∉ vis) ∧
        (∀ n ∈ ns, n ∈ vis ++ pushed) := by
  induction ns with
  | nil =>
    intro st vis
    exact ⟨[], by simp, List.nodup_nil, by simp, by simp⟩
  | cons n ns ih =>
    intro st vis
    rw [List.foldl_cons]
    by_cases h : n ∈ vis
    · rw [if_pos h]
      obtain ⟨pushed, heq, hnd, hfresh, hcover⟩ := ih st vis
      refine ⟨pushed, heq, hnd, ?_, ?_⟩
      · intro m hm
        exact ⟨List.mem_cons_of_mem _ (hfresh m hm).1, (hfresh m hm).2⟩
      · intro m hm
        rcases List.mem_cons.mp hm with hm | hm
        · exact List.mem_append_left _ (hm ▸ h)
        · exact hcover m hm
    · rw [if_neg h]
      obtain ⟨p, heq, hnd, hfresh, hcover⟩ := ih (n :: st) (vis ++ [n])
      refine ⟨n :: p, ?_, ?_, ?_, ?_⟩
      · rw [heq]
        simp
      · refine List.nodup_cons.mpr ⟨?_, hnd⟩
        intro hn
        exact (hfresh n hn).2 (List.mem_append_right _ (List.mem_singleton.mpr rfl))
      · intro m hm
        rcases List.mem_cons.mp hm with hm | hm
        · exact ⟨hm ▸ List.mem_cons_self n ns, hm ▸ h⟩
        · refine ⟨List.mem_cons_of_mem _ (hfresh m hm).1, ?_⟩
          intro hmv
          exact (hfresh m hm).2 (List.mem_append_left _ hmv)
      · intro m hm
        rcases List.mem_cons.mp hm with hm | hm
        · subst hm
          exact List.mem_append_right _ (List.mem_cons_self m p)
        · have := hcover m hm
          simp only [List.mem_append, List.mem_singleton, List.mem_cons] at this ⊢
          tauto

theorem filter_imp_length_le (f g : String → Bool)
    (h : ∀ a, f a = true → g a = true) :
    ∀ l : List String, (l.filter f).length ≤ (l.filter g).length := by
  intro l
  induction l with
  | nil => simp
  | cons x xs ih =>
    simp only [List.filter_cons]
    by_cases hf : f x = true
    · rw [if_pos hf, if_pos (h x hf)]
      simpa using ih
    · rw [if_neg hf]
      by_cases hg : g x = true
      · rw [if_pos hg]
        exact le_trans ih (by simp)
      · rw [if_neg hg]
        exact ih

theorem filter_out_length {p : String} {vis : List String} :
    ∀ {l : List String}, p ∈ l → p ∉ vis →
    (l.filter (fun u => !(decide (u ∈ vis ++ [p])))).length + 1
      ≤ (l.filter (fun u => !(decide (u ∈ vis)))).length := by
  intro l
  induction l with
  | nil => intro hp; cases hp
  | cons x xs ih =>
    intro hp hpv
    simp only [List.filter_cons]
    by_cases hxp : x = p
    · subst hxp
      rw [if_neg (by simp), if_pos (by simpa using hpv)]
      have hmono : (xs.filter (fun u => !(decide (u ∈ vis ++ [x])))).length
          ≤ (xs.filter (fun u => !(decide (u ∈ vis)))).length := by
        refine filter_imp_length_le _ _ ?_ xs
        intro a ha
        simp only [Bool.not_eq_true', decide_eq_false_iff_not, List.mem_append,
          List.mem_singleton] at ha ⊢
        exact fun hav => ha (Or.inl hav)
      simpa using Nat.add_le_add_right hmono 1
    · have hp2 : p ∈ xs := by
        rcases List.mem_cons.mp hp with hh | hh
        · exact absurd hh.symm hxp
        · exact hh
      by_cases hxv : x ∈ vis
      · rw [if_neg (by simp [hxv]), if_neg (by simpa using hxv)]
        exact ih hp2 hpv
      · rw [if_pos (by simp [hxv, hxp]), if_pos (by simpa using hxv)]
        simpa using Nat.add_le_add_right (ih hp2 hpv) 1

theorem unvisCount_append_one {g : Graph} {visited : List String} {p : String}
    (hup : p ∈ graphUniv g) (hp : p ∉ visited) :
    unvisCount g (visited ++ [p]) + 1 ≤ unvisCount g visited :=
  filter_out_length hup hp

theorem unvisCount_append_fresh {g : Graph} :
    ∀ (pushed visited : List String), pushed.Nodup →
      (∀ n ∈ pushed, n ∉ visited ∧ n ∈ graphUniv g) →
      unvisCount g (visited ++ pushed) + pushed.length ≤ unvisCount g visited := by
  intro pushed
  induction pushed with
  | nil =>
    intro visited _ _
    simp
  | cons p ps ih =>
    intro visited hnd hfresh
    have hstep : unvisCount g (visited ++ [p]) + 1 ≤ unvisCount g visited :=
      unvisCount_append_one (hfresh p (List.mem_cons_self p ps)).2
        (hfresh p (List.mem_cons_self p ps)).1
    have hrec : unvisCount g ((visited ++ [p]) ++ ps) + ps.length
        ≤ unvisCount g (visited ++ [p]) := by
      refine ih (visited ++ [p]) (List.nodup_cons.mp hnd).2 ?_
      intro n hn
      refine ⟨?_, (hfresh n (List.mem_cons_of_mem p hn)).2⟩
      intro hnv
      rcases List.mem_append.mp hnv with hh | hh
      · exact (hfresh n (List.mem_cons_of_mem p hn)).1 hh
      · exact (List.nodup_cons.mp hnd).1 (List.mem_singleton.mp hh ▸ hn)
    have heq : visited ++ p :: ps = (visited ++ [p]) ++ ps := by simp
    rw [heq]
    calc unvisCount g ((visited ++ [p]) ++ ps) + (p :: ps).length
        = (unvisCount g ((visited ++ [p]) ++ ps) + ps.length) + 1 := by
          simp [List.length_cons]; omega
      _ ≤ unvisCount g (visited ++ [p]) + 1 := Nat.add_le_add_right hrec 1
      _ ≤ unvisCount g visited := hstep

theorem unvisCount_le_univ (g : Graph) (visited : List String) :
    unvisCount g visited ≤ (graphUniv g).length :=
  List.length_filter_le _ _

theorem dfsLoop_run (g : Graph) (adj : String → String → Prop)
    (hg : ∀ u w, w ∈ neighborsOf g u ↔ adj u w)
    (P : String → Prop) (visited0 : List String)
    (hP : ∀ u w, P u → adj u w → P w) :
    ∀ (fuel : ℕ) (stack visited members : List String),
      (∀ w ∈ stack, P w) →
      (∀ w ∈ members, P w) →
      (∀ w, w ∈ visited ↔ w ∈ visited0 ∨ w ∈ members ∨ w ∈ stack) →
      (members ++ stack).Nodup →
      (∀ w ∈ members, ∀ n, adj w n → n ∈ visited) →
      stack.length + unvisCount g visited ≤ fuel →
      (∀ w ∈ (dfsLoop g fuel stack visited members).2, P w) ∧
      (∀ w, w ∈ (dfsLoop g fuel stack visited members).1 ↔
        w ∈ visited0 ∨ w ∈ (dfsLoop g fuel stack visited members).2) ∧
      (dfsLoop g fuel stack visited members).2.Nodup ∧
      (∀ w ∈ (dfsLoop g fuel stack visited members).2, ∀ n, adj w n →
        n ∈ (dfsLoop g fuel stack visited members).1) ∧
      (∀ w, w ∈ members ∨ w ∈ stack →
        w ∈ (dfsLoop g fuel stack visited members).2) := by
  intro fuel
  induction fuel with
  | zero =>
    intro stack visited members hs hm hviff hnd hcl hfuel
    have hstack : stack = [] := by
      have h0 : stack.length = 0 := by omega
      exact List.length_eq_zero.mp h0
    subst hstack
    have hred : dfsLoop g 0 [] visited members = (visited, members) := rfl
    rw [hred]
    refine ⟨hm, ?_, by simpa using hnd, hcl, ?_⟩
    · intro w
      simpa using hviff w
    · intro w hw
      rcases hw with hw | hw
      · exact hw
      · exact absurd hw (List.not_mem_nil w)
  | succ fuel ih =>
    intro stack visited members hs hm hviff hnd hcl hfuel
    cases stack with
    | nil =>
      have hred : dfsLoop g (fuel + 1) [] visited members = (visited, members) := rfl
      rw [hred]
      refine ⟨hm, ?_, by simpa using hnd, hcl, ?_⟩
      · intro w
        simpa using hviff w
      · intro w hw
        rcases hw with hw | hw
        · exact hw
        · exact absurd hw (List.not_mem_nil w)
    | cons node rest =>
      obtain ⟨pushed, heq, hpnd, hpfresh, hpcover⟩ :=
        dfsPush_spec (neighborsOf g node) rest visited
      have hred : dfsLoop g (fuel + 1) (node :: rest) visited members
          = dfsLoop g fuel (pushed.reverse ++ rest) (visited ++ pushed)
              (members ++ [node]) := by
        show dfsLoop g fuel
            ((neighborsOf g node).foldl (fun (sv : List String × List String) n =>
              if n ∈ sv.2 then sv else (n :: sv.1, sv.2 ++ [n])) (rest, visited)).1
            ((neighborsOf g node).foldl (fun (sv : List String × List String) n =>
              if n ∈ sv.2 then sv else (n :: sv.1, sv.2 ++ [n])) (rest, visited)).2
            (members ++ [node])
          = dfsLoop g fuel (pushed.reverse ++ rest) (visited ++ pushed)
              (members ++ [node])
        rw [heq]
      have H1 : ∀ w ∈ pushed.reverse ++ rest, P w := by
        intro w hw
        rcases List.mem_append.mp hw with hw | hw
        · have hwp : w ∈ pushed := List.mem_reverse.mp hw
          exact hP node w (hs node (List.mem_cons_self node rest))
            ((hg node w).mp (hpfresh w hwp).1)
        · exact hs w (List.mem_cons_of_mem node hw)
      have H2 : ∀ w ∈ members ++ [node], P w := by
        intro w hw
        rcases List.mem_append.mp hw with hw | hw
        · exact hm w hw
        · have hw2 : w = node := List.mem_singleton.mp hw
          rw [hw2]
          exact hs node (List.mem_cons_self node rest)
      have H3 : ∀ w, w ∈ visited ++ pushed ↔
          w ∈ visited0 ∨ w ∈ members ++ [node] ∨ w ∈ pushed.reverse ++ rest := by
        intro w
        have hv := hviff w
        simp only [List.mem_append, List.mem_cons, List.mem_reverse,
          List.mem_singleton] at hv ⊢
        rw [hv]
        tauto
      have hsubv : ∀ a, a ∈ members ++ node :: rest → a ∈ visited := by
        intro a ha
        rcases List.mem_append.mp ha with ha | ha
        · exact (hviff a).mpr (Or.inr (Or.inl ha))
        · exact (hviff a).mpr (Or.inr (Or.inr ha))
      have H4 : ((members ++ [node]) ++ (pushed.reverse ++ rest)).Nodup := by
        have h1 : (pushed.reverse ++ rest).Perm (rest ++ pushed) :=
          List.perm_append_comm.trans (List.Perm.append_left rest pushed.reverse_perm)
        have hperm : ((members ++ [node]) ++ (pushed.reverse ++ rest)).Perm
            ((members ++ node :: rest) ++ pushed) := by
          refine (List.Perm.append_left (members ++ [node]) h1).trans ?_
          have heq2 : (members ++ [node]) ++ (rest ++ pushed)
              = (members ++ node :: rest) ++ pushed := by simp
          rw [heq2]
        refine hperm.nodup_iff.mpr ?_
        refine List.nodup_append.mpr ⟨hnd, hpnd, ?_⟩
        intro a ha hap
        exact (hpfresh a hap).2 (hsubv a ha)
      have H5 : ∀ w ∈ members ++ [node], ∀ n, adj w n → n ∈ visited ++ pushed := by
        intro w hw n hadj
        rcases List.mem_append.mp hw with hw | hw
        · exact List.mem_append_left _ (hcl w hw n hadj)
        · have hw2 : w = node := List.mem_singleton.mp hw
          rw [hw2] at hadj
          exact hpcover n ((hg node n).mpr hadj)
      have hpuniv : ∀ n ∈ pushed, n ∉ visited ∧ n ∈ graphUniv g := by
        intro n hn
        exact ⟨(hpfresh n hn).2, neighborsOf_subset_graphUniv (hpfresh n hn).1⟩
      have hcount := unvisCount_append_fresh pushed visited hpnd hpuniv
      have H6 : (pushed.reverse ++ rest).length
          + unvisCount g (visited ++ pushed) ≤ fuel := by
        have hlen : (pushed.reverse ++ rest).length
            = pushed.length + rest.length := by simp
        simp only [List.length_cons] at hfuel
        rw [hlen]
        omega
      rw [hred]
      obtain ⟨C1, C2, C3, C4, C5⟩ := ih (pushed.reverse ++ rest) (visited ++ pushed)
        (members ++ [node]) H1 H2 H3 H4 H5 H6
      refine ⟨C1, C2, C3, C4, ?_⟩
      intro w hw
      apply C5
      rcases hw with hw | hw
      · exact Or.inl (List.mem_append_left _ hw)
      · rcases List.mem_cons.mp hw with hw | hw
        · refine Or.inl ?_
          rw [hw]
          exact List.mem_append_right _ (List.mem_singleton.mpr rfl)
        · exact Or.inr (List.mem_append_right _ hw)

theorem dfsRoot (g : Graph) (adj : String → String → Prop)
    (hg : ∀ u w, w ∈ neighborsOf g u ↔ adj u w)
    (x : String) (visited0 : List String)
    (hsep : ∀ w, Relation.ReflTransGen adj x w → w ∉ visited0)
    (vm : List String × List String)
    (hvm : vm = dfsLoop g ((graphUniv g).length + 1) [x] (visited0 ++ [x]) []) :
    (∀ w, w ∈ vm.2 ↔ Relation.ReflTransGen adj x w) ∧
    vm.2.Nodup ∧
    (∀ w, w ∈ vm.1 ↔ w ∈ visited0 ∨ Relation.ReflTransGen adj x w) := by
  subst hvm
  obtain ⟨K1, K2, K3, K4, K5⟩ := dfsLoop_run g adj hg
    (Relation.ReflTransGen adj x) visited0
    (fun u w hu huw => Relation.ReflTransGen.tail hu huw)
    ((graphUniv g).length + 1) [x] (visited0 ++ [x]) []
    (by
      intro w hw
      rw [List.mem_singleton.mp hw])
    (by
      intro w hw
      exact absurd hw (List.not_mem_nil w))
    (by
      intro w
      simp)
    (by simp)
    (by
      intro w hw
      exact absurd hw (List.not_mem_nil w))
    (by
      have := unvisCount_le_univ g (visited0 ++ [x])
      simp only [List.length_singleton]
      omega)
  have hback : ∀ w, Relation.ReflTransGen adj x w →
      w ∈ (dfsLoop g ((graphUniv g).length + 1) [x] (visited0 ++ [x]) []).2 := by
    intro w hw
    induction hw with
    | refl => exact K5 x (Or.inr (List.mem_singleton.mpr rfl))
    | @tail b c hxb hbc ih =>
      have hcV : c ∈ (dfsLoop g ((graphUniv g).length + 1) [x]
          (visited0 ++ [x]) []).1 := K4 b ih c hbc
      rcases (K2 c).mp hcV with hc0 | hcM
      · exact absurd hc0 (hsep c (Relation.ReflTransGen.tail hxb hbc))
      · exact hcM
  refine ⟨?_, K3, ?_⟩
  · intro w
    exact ⟨fun h => K1 w h, fun h => hback w h⟩
  · intro w
    rw [K2 w]
    constructor
    · intro h
      rcases h with h | h
      · exact Or.inl h
      · exact Or.inr (K1 w h)
    · intro h
      rcases h with h | h
      · exact Or.inl h
      · exact Or.inr (hback w h)

theorem length_le_one_of_nodup_const {l : List String} {a : String}
    (hnd : l.Nodup) (h : ∀ w ∈ l, w = a) : l.length ≤ 1 := by
  cases l with
  | nil => simp
  | cons x xs =>
    cases xs with
    | nil => simp
    | cons y ys =>
      exfalso
      have hx : x = a := h x (List.mem_cons_self _ _)
      have hy : y = a := h y (List.mem_cons_of_mem _ (List.mem_cons_self _ _))
      have hnx : x ∉ y :: ys := (List.nodup_cons.mp hnd).1
      refine hnx ?_
      rw [hx, ← hy]
      exact List.mem_cons_self y ys

theorem eq_of_mem_of_length_le_one {l : List String} {a w : String}
    (ha : a ∈ l) (hlen : l.length ≤ 1) (hw : w ∈ l) : w = a := by
  cases l with
  | nil => exact absurd hw (List.not_mem_nil w)
  | cons x xs =>
    cases xs with
    | nil =>
      rw [List.mem_singleton.mp hw, List.mem_singleton.mp ha]
    | cons y ys => simp at hlen

theorem clusterInv_single (ids : List String) (edges : List Edge) (minCorr : ℚ)
    (pre : List String) (st : ClusterState) (id : String)
    (hvis : id ∉ st.visited)
    (V M : List String)
    (hM : ∀ w, w ∈ M ↔ connectedIn edges minCorr id w)
    (hVch : ∀ w, w ∈ V ↔ w ∈ st.visited ∨ connectedIn edges minCorr id w)
    (hlen : ¬ 1 < M.length)
    (st' : ClusterState)
    (hv' : st'.visited = V)
    (hb' : st'.clusterById = st.clusterById)
    (hs' : st'.clusterSizeById = st.clusterSizeById)
    (hn' : st'.nextClusterId = st.nextClusterId)
    (hinv : clusterInv ids edges minCorr pre st) :
    clusterInv ids edges minCorr (pre ++ [id]) st' := by
  obtain ⟨reps, hR, hS, hN, hP, hV, hI, hT, hC, hZ⟩ := hinv
  have hnew : ¬ ∃ p ∈ pre, connectedIn edges minCorr p id := by
    rintro ⟨p, hp, hpc⟩
    exact hvis ((hV id).mpr ⟨p, hp, hpc⟩)
  have hidM : id ∈ M := (hM id).mpr Relation.ReflTransGen.refl
  have hsing : singletonComp (connectedIn edges minCorr) id := by
    intro w hw
    have hle : M.length ≤ 1 := by
      rcases Nat.lt_or_ge 1 M.length with hh | hh
      · exact absurd hh hlen
      · exact hh
    exact eq_of_mem_of_length_le_one hidM hle ((hM w).mpr hw)
  refine ⟨reps, RepsOf.single hR hnew hsing,
    hS.trans (List.sublist_append_left pre [id]), hN, hP, ?_, ?_, ?_, ?_, ?_⟩
  · intro w
    rw [hv', hVch w, hV w]
    constructor
    · rintro (⟨p, hp, hpw⟩ | hw)
      · exact ⟨p, List.mem_append_left _ hp, hpw⟩
      · exact ⟨id, List.mem_append_right _ (List.mem_singleton.mpr rfl), hw⟩
    · rintro ⟨p, hp, hpw⟩
      rcases List.mem_append.mp hp with hp | hp
      · exact Or.inl ⟨p, hp, hpw⟩
      · exact Or.inr ((List.mem_singleton.mp hp) ▸ hpw)
  · rw [hn']
    exact hI
  · rw [hb', hs']
    exact hT
  · rw [hb']
    exact hC
  · rw [hs']
    exact hZ

theorem clusterInv_root (ids : List String) (edges : List Edge) (minCorr : ℚ)
    (hE : ∀ e ∈ qualifyingEdges edges minCorr, e.a ∈ ids ∧ e.b ∈ ids)
    (pre : List String) (st : ClusterState) (id : String) (hid : id ∈ ids)
    (hvis : id ∉ st.visited)
    (V M : List String)
    (hM : ∀ w, w ∈ M ↔ connectedIn edges minCorr id w)
    (hMnd : M.Nodup)
    (hVch : ∀ w, w ∈ V ↔ w ∈ st.visited ∨ connectedIn edges minCorr id w)
    (hlen : 1 < M.length)
    (st' : ClusterState)
    (hv' : st'.visited = V)
    (hb' : st'.clusterById
      = M.foldl (fun m v => mapSet m v st.nextClusterId) st.clusterById)
    (hs' : st'.clusterSizeById
      = M.foldl (fun m v => mapSet m v M.length) st.clusterSizeById)
    (hn' : st'.nextClusterId = st.nextClusterId + 1)
    (hinv : clusterInv ids edges minCorr pre st) :
    clusterInv ids edges minCorr (pre ++ [id]) st' := by
  obtain ⟨reps, hR, hS, hN, hP, hV, hI, hT, hC, hZ⟩ := hinv
  have hnew : ¬ ∃ p ∈ pre, connectedIn edges minCorr p id := by
    rintro ⟨p, hp, hpc⟩
    exact hvis ((hV id).mpr ⟨p, hp, hpc⟩)
  have hnotsing : ¬ singletonComp (connectedIn edges minCorr) id := by
    intro hsing
    have hle : M.length ≤ 1 := length_le_one_of_nodup_const hMnd
      (fun w hw => hsing w ((hM w).mp hw))
    omega
  have hMids : ∀ v ∈ M, v ∈ ids := fun v hv =>
    connectedIn_mem_right hE hid ((hM v).mp hv)
  refine ⟨reps ++ [id], RepsOf.root hR hnew hnotsing,
    List.Sublist.append hS (List.Sublist.refl [id]), ?_, ?_, ?_, ?_, ?_, ?_, ?_⟩
  · intro r hr
    rcases List.mem_append.mp hr with hr | hr
    · exact hN r hr
    · rw [List.mem_singleton.mp hr]
      exact hnotsing
  · refine List.pairwise_append.mpr ⟨hP, by simp, ?_⟩
    intro a ha b hb
    have hbid : b = id := List.mem_singleton.mp hb
    subst hbid
    intro hc
    exact hnew ⟨a, hS.subset ha, hc⟩
  · intro w
    rw [hv', hVch w, hV w]
    constructor
    · rintro (⟨p, hp, hpw⟩ | hw)
      · exact ⟨p, List.mem_append_left _ hp, hpw⟩
      · exact ⟨id, List.mem_append_right _ (List.mem_singleton.mpr rfl), hw⟩
    · rintro ⟨p, hp, hpw⟩
      rcases List.mem_append.mp hp with hp | hp
      · exact Or.inl ⟨p, hp, hpw⟩
      · exact Or.inr ((List.mem_singleton.mp hp) ▸ hpw)
  · rw [hn', hI]
    simp
  · intro v hv
    rw [hb', hs', mapGet_foldl_mapSet_const, mapGet_foldl_mapSet_const]
    by_cases hvM : v ∈ M
    · rw [if_pos hvM, if_pos hvM]
      exact ⟨rfl, rfl⟩
    · rw [if_neg hvM, if_neg hvM]
      exact hT v hv
  · intro v k
    rw [hb', mapGet_foldl_mapSet_const]
    by_cases hvM : v ∈ M
    · rw [if_pos hvM]
      intro hk
      have hk2 : k = st.nextClusterId := (Option.some.inj hk).symm
      refine ⟨hMids v hvM, Or.inr ?_⟩
      have hltid : reps.length < (reps ++ [id]).length := by simp
      refine ⟨⟨reps.length, hltid⟩, ?_, ?_⟩
      · have hget : (reps ++ [id]).get ⟨reps.length, hltid⟩ = id := by
          rw [List.get_eq_getElem]
          exact List.getElem_concat_length reps id _ rfl _
        rw [hget]
        exact (hM v).mp hvM
      · rw [hk2, hI]
    · rw [if_neg hvM]
      intro hk
      obtain ⟨hvids, hdis⟩ := hC v k hk
      refine ⟨hvids, ?_⟩
      rcases hdis with ⟨hk0, hall⟩ | ⟨i, hconn, hki⟩
      · refine Or.inl ⟨hk0, ?_⟩
        intro r hr
        rcases List.mem_append.mp hr with hr | hr
        · exact hall r hr
        · rw [List.mem_singleton.mp hr]
          intro hc
          exact hvM ((hM v).mpr hc)
      · have hlt : (i : ℕ) < (reps ++ [id]).length := by
          have := i.isLt
          simp only [List.length_append, List.length_singleton]
          omega
        refine Or.inr ⟨⟨(i : ℕ), hlt⟩, ?_, ?_⟩
        · have hgeteq : (reps ++ [id]).get ⟨(i : ℕ), hlt⟩ = reps.get i := by
            rw [List.get_eq_getElem, List.get_eq_getElem]
            exact List.getElem_append_left i.isLt
          rw [hgeteq]
          exact hconn
        · exact hki
  · intro v s
    rw [hs', mapGet_foldl_mapSet_const]
    by_cases hvM : v ∈ M
    · rw [if_pos hvM]
      intro hs
      have hs2 : s = M.length := (Option.some.inj hs).symm
      have hidv : connectedIn edges minCorr id v := (hM v).mp hvM
      refine ⟨hMids v hvM,
        Or.inr ⟨⟨id, List.mem_append_right _ (List.mem_singleton.mpr rfl), hidv⟩,
          M, hMnd, ?_, hs2⟩⟩
      intro w
      rw [hM w]
      constructor
      · intro h
        exact Relation.ReflTransGen.trans (connectedIn_symm hidv) h
      · intro h
        exact Relation.ReflTransGen.trans hidv h
    · rw [if_neg hvM]
      intro hs
      obtain ⟨hvids, hdis⟩ := hZ v s hs
      refine ⟨hvids, ?_⟩
      rcases hdis with ⟨hs1, hall⟩ | ⟨⟨r, hr, hrc⟩, enum, hend, hem, hsl⟩
      · refine Or.inl ⟨hs1, ?_⟩
        intro r hr
        rcases List.mem_append.mp hr with hr | hr
        · exact hall r hr
        · rw [List.mem_singleton.mp hr]
          intro hc
          exact hvM ((hM v).mpr hc)
      · exact Or.inr ⟨⟨r, List.mem_append_left _ hr, hrc⟩, enum, hend, hem, hsl⟩

theorem RepsOf_covers {conn : String → String → Prop}
    (hrefl : ∀ a, conn a a)
    (hsymm : ∀ a b, conn a b → conn b a)
    (htrans : ∀ a b c, conn a b → conn b c → conn a c) :
    ∀ {pre reps : List String}, RepsOf conn pre reps →
      ∀ v ∈ pre, ¬ singletonComp conn v → ∃ r ∈ reps, conn r v := by
  intro pre reps h
  induction h with
  | nil =>
    intro v hv
    exact absurd hv (List.not_mem_nil v)
  | @covered pre reps x hrep hcov ih =>
    intro v hv hns
    rcases List.mem_append.mp hv with hv | hv
    · exact ih v hv hns
    · have hvx : v = x := List.mem_singleton.mp hv
      subst hvx
      obtain ⟨p, hp, hpc⟩ := hcov
      have hnsp : ¬ singletonComp conn p := by
        intro hsp
        have hvp : v = p := hsp v hpc
        exact hns (hvp ▸ hsp)
      obtain ⟨r, hr, hrc⟩ := ih p hp hnsp
      exact ⟨r, hr, htrans r p v hrc hpc⟩
  | @single pre reps x hrep hnc hsing ih =>
    intro v hv hns
    rcases List.mem_append.mp hv with hv | hv
    · exact ih v hv hns
    · have hvx : v = x := List.mem_singleton.mp hv
      subst hvx
      exact absurd hsing hns
  | @root pre reps x hrep hnc hns2 ih =>
    intro v hv hnsv
    rcases List.mem_append.mp hv with hv | hv
    · obtain ⟨r, hr, hrc⟩ := ih v hv hnsv
      exact ⟨r, List.mem_append_left _ hr, hrc⟩
    · have hvx : v = x := List.mem_singleton.mp hv
      subst hvx
      exact ⟨v, List.mem_append_right _ (List.mem_singleton.mpr rfl), hrefl v⟩

theorem clusterStep_inv (ids : List String) (edges : List Edge) (minCorr : ℚ)
    (hE : ∀ e ∈ qualifyingEdges edges minCorr, e.a ∈ ids ∧ e.b ∈ ids)
    (pre : List String) (st : ClusterState) (id : String) (hid : id ∈ ids)
    (hinv : clusterInv ids edges minCorr pre st) :
    clusterInv ids edges minCorr (pre ++ [id])
      (clusterStep (buildGraph ids edges minCorr) st id) := by
  by_cases hvis : id ∈ st.visited
  · obtain ⟨reps, hR, hS, hN, hP, hV, hI, hT, hC, hZ⟩ := hinv
    have hcov : ∃ p ∈ pre, connectedIn edges minCorr p id := (hV id).mp hvis
    rw [clusterStep, if_pos hvis]
    refine ⟨reps, RepsOf.covered hR hcov,
      hS.trans (List.sublist_append_left pre [id]), hN, hP, ?_, hI, hT, hC, hZ⟩
    intro w
    rw [hV w]
    constructor
    · rintro ⟨p, hp, hpw⟩
      exact ⟨p, List.mem_append_left _ hp, hpw⟩
    · rintro ⟨p, hp, hpw⟩
      rcases List.mem_append.mp hp with hp | hp
      · exact ⟨p, hp, hpw⟩
      · obtain ⟨q, hq, hqid⟩ := hcov
        exact ⟨q, hq, Relation.ReflTransGen.trans hqid
          ((List.mem_singleton.mp hp) ▸ hpw)⟩
  · have hg : ∀ u w, w ∈ neighborsOf (buildGraph ids edges minCorr) u ↔
        adjacentIn edges minCorr u w := neighborsOf_buildGraph hE
    have hsep : ∀ w, Relation.ReflTransGen (adjacentIn edges minCorr) id w →
        w ∉ st.visited := by
      intro w hw hwv
      obtain ⟨reps, hR, hS, hN, hP, hV, hI, hT, hC, hZ⟩ := hinv
      obtain ⟨p, hp, hpw⟩ := (hV w).mp hwv
      exact hvis ((hV id).mpr ⟨p, hp,
        Relation.ReflTransGen.trans hpw (connectedIn_symm hw)⟩)
    obtain ⟨hM, hMnd, hVch⟩ := dfsRoot (buildGraph ids edges minCorr)
      (adjacentIn edges minCorr) hg id st.visited hsep
      (dfsRun (buildGraph ids edges minCorr) st.visited id) rfl
    have hstep : clusterStep (buildGraph ids edges minCorr) st id
        = (if 1 < (dfsRun (buildGraph ids edges minCorr) st.visited id).2.length
          then
            { visited := (dfsRun (buildGraph ids edges minCorr) st.visited id).1
              clusterById :=
                (dfsRun (buildGraph ids edges minCorr) st.visited id).2.foldl
                  (fun m v => mapSet m v st.nextClusterId) st.clusterById
              clusterSizeById :=
                (dfsRun (buildGraph ids edges minCorr) st.visited id).2.foldl
                  (fun m v => mapSet m v
                    (dfsRun (buildGraph ids edges minCorr) st.visited id).2.length)
                  st.clusterSizeById
              summary := st.summary
                ++ [(dfsRun (buildGraph ids edges minCorr) st.visited id).2.length]
              nextClusterId := st.nextClusterId + 1 }
          else
            { st with
                visited := (dfsRun (buildGraph ids edges minCorr) st.visited id).1 }) := by
      rw [clusterStep, if_neg hvis]
      rfl
    rw [hstep]
    by_cases hlen :
        1 < (dfsRun (buildGraph ids edges minCorr) st.visited id).2.length
    · rw [if_pos hlen]
      exact clusterInv_root ids edges minCorr hE pre st id hid hvis
        (dfsRun (buildGraph ids edges minCorr) st.visited id).1
        (dfsRun (buildGraph ids edges minCorr) st.visited id).2
        hM hMnd hVch hlen _ rfl rfl rfl rfl hinv
    · rw [if_neg hlen]
      exact clusterInv_single ids edges minCorr pre st id hvis
        (dfsRun (buildGraph ids edges minCorr) st.visited id).1
        (dfsRun (buildGraph ids edges minCorr) st.visited id).2
        hM hVch hlen _ rfl rfl rfl rfl hinv

theorem clusterInv_init (ids : List String) (edges : List Edge) (minCorr : ℚ) :
    clusterInv ids edges minCorr []
      { visited := []
        clusterById := ids.foldl
          (fun m id => if (mapGet m id).isSome then m else m ++ [(id, 0)]) []
        clusterSizeById := ids.foldl
          (fun m id => if (mapGet m id).isSome then m else m ++ [(id, 1)]) []
        summary := []
        nextClusterId := 1 } := by
  have h0 : ∀ v, mapGet (ids.foldl
      (fun m id => if (mapGet m id).isSome then m else m ++ [(id, (0 : ℕ))]) []) v
      = if v ∈ ids then some 0 else none := by
    intro v
    rw [mapGet_dedupInit]
    rfl
  have h1 : ∀ v, mapGet (ids.foldl
      (fun m id => if (mapGet m id).isSome then m else m ++ [(id, (1 : ℕ))]) []) v
      = if v ∈ ids then some 1 else none := by
    intro v
    rw [mapGet_dedupInit]
    rfl
  refine ⟨[], RepsOf.nil, List.Sublist.refl [], ?_, List.Pairwise.nil, ?_, rfl,
    ?_, ?_, ?_⟩
  · intro r hr
    exact absurd hr (List.not_mem_nil r)
  · intro w
    simp
  · intro v hv
    constructor
    · show (mapGet (ids.foldl
        (fun m id => if (mapGet m id).isSome then m else m ++ [(id, (0 : ℕ))]) [])
          v).isSome = true
      rw [h0 v, if_pos hv]
      rfl
    · show (mapGet (ids.foldl
        (fun m id => if (mapGet m id).isSome then m else m ++ [(id, (1 : ℕ))]) [])
          v).isSome = true
      rw [h1 v, if_pos hv]
      rfl
  · intro v k hk
    have hk2 : (if v ∈ ids then some 0 else none) = some k := by
      rw [← h0 v]
      exact hk
    by_cases hv : v ∈ ids
    · rw [if_pos hv] at hk2
      refine ⟨hv, Or.inl ⟨(Option.some.inj hk2).symm, ?_⟩⟩
      intro r hr
      exact absurd hr (List.not_mem_nil r)
    · rw [if_neg hv] at hk2
      exact absurd hk2 (Option.noConfusion)
  · intro v s hs
    have hs2 : (if v ∈ ids then some 1 else none) = some s := by
      rw [← h1 v]
      exact hs
    by_cases hv : v ∈ ids
    · rw [if_pos hv] at hs2
      refine ⟨hv, Or.inl ⟨(Option.some.inj hs2).symm, ?_⟩⟩
      intro r hr
      exact absurd hr (List.not_mem_nil r)
    · rw [if_neg hv] at hs2
      exact absurd hs2 (Option.noConfusion)

theorem clusterFold_inv (ids : List String) (edges : List Edge) (minCorr : ℚ)
    (hE : ∀ e ∈ qualifyingEdges edges minCorr, e.a ∈ ids ∧ e.b ∈ ids) :
    ∀ (suf pre : List String) (st : ClusterState),
      (∀ i ∈ suf, i ∈ ids) →
      clusterInv ids edges minCorr pre st →
      clusterInv ids edges minCorr (pre ++ suf)
        (suf.foldl (clusterStep (buildGraph ids edges minCorr)) st) := by
  intro suf
  induction suf with
  | nil =>
    intro pre st _ hinv
    simpa using hinv
  | cons i suf ih =>
    intro pre st hsub hinv
    rw [List.foldl_cons]
    have hstep := clusterStep_inv ids edges minCorr hE pre st i
      (hsub i (List.mem_cons_self i suf)) hinv
    have hrec := ih (pre ++ [i])
      (clusterStep (buildGraph ids edges minCorr) st i)
      (fun j hj => hsub j (List.mem_cons_of_mem i hj)) hstep
    simpa using hrec

theorem buildClusters_inv (ids : List String) (edges : List Edge) (minCorr : ℚ)
    (hE : ∀ e ∈ qualifyingEdges edges minCorr, e.a ∈ ids ∧ e.b ∈ ids) :
    ∃ reps : List String,
      RepsOf (connectedIn edges minCorr) ids reps ∧
      reps.Sublist ids ∧
      (∀ r ∈ reps, ¬ singletonComp (connectedIn edges minCorr) r) ∧
      List.Pairwise (fun a b => ¬ connectedIn edges minCorr a b) reps ∧
      (∀ v ∈ ids,
        (mapGet (buildClusters ids edges minCorr).clusterById v).isSome ∧
        (mapGet (buildClusters ids edges minCorr).clusterSizeById v).isSome) ∧
      (∀ v k, mapGet (buildClusters ids edges minCorr).clusterById v = some k →
        v ∈ ids ∧
          ((k = 0 ∧ ∀ r ∈ reps, ¬ connectedIn edges minCorr r v) ∨
           (∃ i : Fin reps.length, connectedIn edges minCorr (reps.get i) v ∧
             k = (i : ℕ) + 1))) ∧
      (∀ v s, mapGet (buildClusters ids edges minCorr).clusterSizeById v = some s →
        v ∈ ids ∧
          ((s = 1 ∧ ∀ r ∈ reps, ¬ connectedIn edges minCorr r v) ∨
           ((∃ r ∈ reps, connectedIn edges minCorr r v) ∧
            ∃ enum : List String, enum.Nodup ∧
              (∀ w, w ∈ enum ↔ connectedIn edges minCorr v w) ∧
              s = enum.length))) := by
  have hinv := clusterFold_inv ids edges minCorr hE ids []
    { visited := []
      clusterById := ids.foldl
        (fun m id => if (mapGet m id).isSome then m else m ++ [(id, 0)]) []
      clusterSizeById := ids.foldl
        (fun m id => if (mapGet m id).isSome then m else m ++ [(id, 1)]) []
      summary := []
      nextClusterId := 1 }
    (fun i hi => hi) (clusterInv_init ids edges minCorr)
  rw [List.nil_append] at hinv
  obtain ⟨reps, hR, hS, hN, hP, hV, hI, hT, hC, hZ⟩ := hinv
  have hb : (buildClusters ids edges minCorr).clusterById
      = (ids.foldl (clusterStep (buildGraph ids edges minCorr))
          { visited := []
            clusterById := ids.foldl
              (fun m id => if (mapGet m id).isSome then m else m ++ [(id, 0)]) []
            clusterSizeById := ids.foldl
              (fun m id => if (mapGet m id).isSome then m else m ++ [(id, 1)]) []
            summary := []
            nextClusterId := 1 }).clusterById := rfl
  have hsz : (buildClusters ids edges minCorr).clusterSizeById
      = (ids.foldl (clusterStep (buildGraph ids edges minCorr))
          { visited := []
            clusterById := ids.foldl
              (fun m id => if (mapGet m id).isSome then m else m ++ [(id, 0)]) []
            clusterSizeById := ids.foldl
              (fun m id => if (mapGet m id).isSome then m else m ++ [(id, 1)]) []
            summary := []
            nextClusterId := 1 }).clusterSizeById := rfl
  refine ⟨reps, hR, hS, hN, hP, ?_, ?_, ?_⟩
  · intro v hv
    rw [hb, hsz]
    exact hT v hv
  · intro v k
    rw [hb]
    exact hC v k
  · intro v s
    rw [hsz]
    exact hZ v s

theorem length_eq_of_nodup_mem_iff {l₁ l₂ : List String} (h1 : l₁.Nodup)
    (h2 : l₂.Nodup) (h : ∀ a, a ∈ l₁ ↔ a ∈ l₂) : l₁.length = l₂.length :=
  ((List.perm_ext_iff_of_nodup h1 h2).mpr h).length_eq

/-- **C6** (amended) — Cluster Detector postcondition, restricted to edge
lists whose endpoints all lie in the id list (the counterexample shows an
edge with a foreign endpoint is only wired into the graph in the direction
of its in-list endpoint, which can split a connected component).  Under
that restriction: every id whose qualifying-edge component is a singleton
keeps clusterId 0 and clusterSize 1; every id in a multi-member component
gets clusterId `i + 1` where `i` is the index of its component's root in
the first-visited root list `reps` (sequential ids starting at 1 in
root-first-visited order, per `RepsOf`), and clusterSize equal to the
cardinality of its component; and any two connected ids share both
values. -/
theorem buildClusters_componentSpec (ids : List String) (edges : List Edge)
    (minCorr : ℚ)
    (hE : ∀ e ∈ qualifyingEdges edges minCorr, e.a ∈ ids ∧ e.b ∈ ids) :
    ∃ reps : List String,
      RepsOf (connectedIn edges minCorr) ids reps ∧
      (∀ v ∈ ids, singletonComp (connectedIn edges minCorr) v →
        mapGet (buildClusters ids edges minCorr).clusterById v = some 0 ∧
        mapGet (buildClusters ids edges minCorr).clusterSizeById v = some 1) ∧
      (∀ v ∈ ids, ¬ singletonComp (connectedIn edges minCorr) v →
        ∃ i : Fin reps.length,
          connectedIn edges minCorr (reps.get i) v ∧
          mapGet (buildClusters ids edges minCorr).clusterById v
            = some ((i : ℕ) + 1) ∧
          ∃ enum : List String, enum.Nodup ∧
            (∀ w, w ∈ enum ↔ connectedIn edges minCorr v w) ∧
            mapGet (buildClusters ids edges minCorr).clusterSizeById v
              = some enum.length) ∧
      (∀ u ∈ ids, ∀ v ∈ ids, connectedIn edges minCorr u v →
        mapGet (buildClusters ids edges minCorr).clusterById u
          = mapGet (buildClusters ids edges minCorr).clusterById v ∧
        mapGet (buildClusters ids edges minCorr).clusterSizeById u
          = mapGet (buildClusters ids edges minCorr).clusterSizeById v) := by
  obtain ⟨reps, hR, hS, hN, hP, hT, hC, hZ⟩ :=
    buildClusters_inv ids edges minCorr hE
  have hsymm2 : ∀ a b, connectedIn edges minCorr a b →
      connectedIn edges minCorr b a := fun a b h => connectedIn_symm h
  have htrans2 : ∀ a b c, connectedIn edges minCorr a b →
      connectedIn edges minCorr b c → connectedIn edges minCorr a c :=
    fun a b c h1 h2 => Relation.ReflTransGen.trans h1 h2
  have hrefl : ∀ a, connectedIn edges minCorr a a :=
    fun a => Relation.ReflTransGen.refl
  have hsingle : ∀ v ∈ ids, singletonComp (connectedIn edges minCorr) v →
      mapGet (buildClusters ids edges minCorr).clusterById v = some 0 ∧
      mapGet (buildClusters ids edges minCorr).clusterSizeById v = some 1 := by
    intro v hv hsing
    obtain ⟨hbsome, hssome⟩ := hT v hv
    obtain ⟨k, hk⟩ := Option.isSome_iff_exists.mp hbsome
    obtain ⟨s, hs⟩ := Option.isSome_iff_exists.mp hssome
    obtain ⟨_, hdis⟩ := hC v k hk
    obtain ⟨_, hdis2⟩ := hZ v s hs
    constructor
    · rcases hdis with ⟨hk0, _⟩ | ⟨i, hconn, _⟩
      · rw [hk, hk0]
      · exfalso
        have heq : reps.get i = v := hsing _ (hsymm2 _ _ hconn)
        rw [← heq] at hsing
        exact hN _ (List.get_mem reps i.1 i.2) hsing
    · rcases hdis2 with ⟨hs1, _⟩ | ⟨⟨r, hr, hrc⟩, _⟩
      · rw [hs, hs1]
      · exfalso
        have heq : r = v := hsing r (hsymm2 _ _ hrc)
        rw [← heq] at hsing
        exact hN r hr hsing
  have hmulti : ∀ v ∈ ids, ¬ singletonComp (connectedIn edges minCorr) v →
      ∃ i : Fin reps.length,
        connectedIn edges minCorr (reps.get i) v ∧
        mapGet (buildClusters ids edges minCorr).clusterById v
          = some ((i : ℕ) + 1) ∧
        ∃ enum : List String, enum.Nodup ∧
          (∀ w, w ∈ enum ↔ connectedIn edges minCorr v w) ∧
          mapGet (buildClusters ids edges minCorr).clusterSizeById v
            = some enum.length := by
    intro v hv hns
    obtain ⟨r0, hr0, hr0c⟩ := RepsOf_covers hrefl hsymm2 htrans2 hR v hv hns
    obtain ⟨hbsome, hssome⟩ := hT v hv
    obtain ⟨k, hk⟩ := Option.isSome_iff_exists.mp hbsome
    obtain ⟨s, hs⟩ := Option.isSome_iff_exists.mp hssome
    obtain ⟨_, hdis⟩ := hC v k hk
    rcases hdis with ⟨_, hall⟩ | ⟨i, hconn, hki⟩
    · exact absurd hr0c (hall r0 hr0)
    obtain ⟨_, hdis2⟩ := hZ v s hs
    rcases hdis2 with ⟨_, hall2⟩ | ⟨_, enum, hend, hem, hsl⟩
    · exact absurd hr0c (hall2 r0 hr0)
    refine ⟨i, hconn, ?_, enum, hend, hem, ?_⟩
    · rw [hk, hki]
    · rw [hs, hsl]
  refine ⟨reps, hR, hsingle, hmulti, ?_⟩
  intro u hu v hv hconn
  by_cases hsu : singletonComp (connectedIn edges minCorr) u
  · have hvu : v = u := hsu v hconn
    subst hvu
    exact ⟨rfl, rfl⟩
  · have hsv : ¬ singletonComp (connectedIn edges minCorr) v := by
      intro hsv0
      have huv : u = v := hsv0 u (hsymm2 _ _ hconn)
      rw [huv] at hsu
      exact hsu hsv0
    obtain ⟨i, hci, hku, enumu, hendu, hemu, hsu2⟩ := hmulti u hu hsu
    obtain ⟨j, hcj, hkv, enumv, hendv, hemv, hsv2⟩ := hmulti v hv hsv
    have hij : i = j := by
      by_contra hne
      have hcij : connectedIn edges minCorr (reps.get i) (reps.get j) :=
        htrans2 _ _ _ (htrans2 _ _ _ hci hconn) (hsymm2 _ _ hcj)
      rcases lt_or_gt_of_ne hne with h | h
      · exact (List.pairwise_iff_get.mp hP i j h) hcij
      · exact (List.pairwise_iff_get.mp hP j i h) (hsymm2 _ _ hcij)
    constructor
    · rw [hku, hkv, hij]
    · rw [hsu2, hsv2]
      have hlen : enumu.length = enumv.length := by
        refine length_eq_of_nodup_mem_iff hendu hendv ?_
        intro a
        rw [hemu a, hemv a]
        constructor
        · intro h
          exact htrans2 _ _ _ (hsymm2 _ _ hconn) h
        · intro h
          exact htrans2 _ _ _ hconn h
      rw [hlen]

theorem buildClusters_componentSpec_witness :
    (∀ e ∈ qualifyingEdges [({ a := "a", b := "b", corr := 1 } : Edge)] 0,
      e.a ∈ ["a", "b"] ∧ e.b ∈ ["a", "b"]) ∧
    ∃ reps : List String,
      RepsOf (connectedIn [({ a := "a", b := "b", corr := 1 } : Edge)] 0)
        ["a", "b"] reps ∧
      (∀ v ∈ ["a", "b"],
        singletonComp (connectedIn [({ a := "a", b := "b", corr := 1 } : Edge)] 0) v →
        mapGet (buildClusters ["a", "b"]
          [({ a := "a", b := "b", corr := 1 } : Edge)] 0).clusterById v = some 0 ∧
        mapGet (buildClusters ["a", "b"]
          [({ a := "a", b := "b", corr := 1 } : Edge)] 0).clusterSizeById v
          = some 1) ∧
      (∀ v ∈ ["a", "b"],
        ¬ singletonComp (connectedIn [({ a := "a", b := "b", corr := 1 } : Edge)] 0) v →
        ∃ i : Fin reps.length,
          connectedIn [({ a := "a", b := "b", corr := 1 } : Edge)] 0 (reps.get i) v ∧
          mapGet (buildClusters ["a", "b"]
            [({ a := "a", b := "b", corr := 1 } : Edge)] 0).clusterById v
            = some ((i : ℕ) + 1) ∧
          ∃ enum : List String, enum.Nodup ∧
            (∀ w, w ∈ enum ↔
              connectedIn [({ a := "a", b := "b", corr := 1 } : Edge)] 0 v w) ∧
            mapGet (buildClusters ["a", "b"]
              [({ a := "a", b := "b", corr := 1 } : Edge)] 0).clusterSizeById v
              = some enum.length) ∧
      (∀ u ∈ ["a", "b"], ∀ v ∈ ["a", "b"],
        connectedIn [({ a := "a", b := "b", corr := 1 } : Edge)] 0 u v →
        mapGet (buildClusters ["a", "b"]
          [({ a := "a", b := "b", corr := 1 } : Edge)] 0).clusterById u
          = mapGet (buildClusters ["a", "b"]
            [({ a := "a", b := "b", corr := 1 } : Edge)] 0).clusterById v ∧
        mapGet (buildClusters ["a", "b"]
          [({ a := "a", b := "b", corr := 1 } : Edge)] 0).clusterSizeById u
          = mapGet (buildClusters ["a", "b"]
            [({ a := "a", b := "b", corr := 1 } : Edge)] 0).clusterSizeById v) :=
  ⟨by with_unfolding_all decide,
   buildClusters_componentSpec ["a", "b"] [{ a := "a", b := "b", corr := 1 }] 0
     (by with_unfolding_all decide)⟩
